import Mathlib

/-!
Verification of the maze-game core (repository: mataha).

The repository holds two near-duplicate implementations of the same design
(src/index.tsx and src/unnamed/part_000).  The shared algorithmic core is
embedded here:

* maze generation by randomized iterative depth-first carving
  (generateMaze, both files, identical text),
* breadth-first shortest-path search (findShortestPath, identical text),
* star placement along the solution path (generateStars, identical text),
* the movement / animation state machine of src/index.tsx
  (canMove, setDirection, checkGameStatus, update) and the delayed
  level-advance callbacks of both variants.

Randomness: the source draws Math.random() once per loop iteration and uses
Math.floor(r * k) as an index in [0, k).  Each draw is modelled by an
arbitrary stream rand : Nat -> Nat, reduced mod k at use site; quantifying
over all streams covers every possible sequence of draws.
-/

namespace Mataha

/-- Grid position, a pair (x, y) of coordinates in [0, n). -/
abbrev Pos (n : ℕ) := Fin n × Fin n

/-- One maze cell: four wall flags plus the transient generation flag,
exactly the MazeCell record of the source. -/
structure Cell where
  top : Bool
  right : Bool
  bottom : Bool
  left : Bool
  visited : Bool
deriving DecidableEq, Repr

/-- The four wall sides of a cell. -/
inductive Wall | top | right | bottom | left
deriving DecidableEq, Repr

/-- The wall on the other side of a shared boundary (the oppositeWall field
of the neighbor records in generateMaze). -/
def Wall.opp : Wall → Wall
  | .top => .bottom
  | .right => .left
  | .bottom => .top
  | .left => .right

/-- Read the wall flag of a cell on a given side. -/
def Cell.wallB : Cell → Wall → Bool
  | c, .top => c.top
  | c, .right => c.right
  | c, .bottom => c.bottom
  | c, .left => c.left

/-- Write the wall flag of a cell on a given side. -/
def Cell.setWall : Cell → Wall → Bool → Cell
  | c, .top, b => { c with top := b }
  | c, .right, b => { c with right := b }
  | c, .bottom, b => { c with bottom := b }
  | c, .left, b => { c with left := b }

/-- A maze grid of side n: the cell stored at each position
(source: maze[y][x] is the cell at position (x, y)). -/
def Grid (n : ℕ) := Pos n → Cell

/-- Replace the cell stored at one position. -/
def setCell {n : ℕ} (g : Grid n) (p : Pos n) (c : Cell) : Grid n :=
  fun q => if q = p then c else g q

/-- The fully-walled unvisited grid all cells start from in generateMaze. -/
def initGrid (n : ℕ) : Grid n :=
  fun _ => ⟨true, true, true, true, false⟩

/-- The grid-adjacent neighbor of p through wall w, when it exists
(bounds-checked exactly as the four guards of generateMaze). -/
def wallNeighbor {n : ℕ} (p : Pos n) : Wall → Option (Pos n)
  | .top =>
    if h : 0 < (p.2 : ℕ) then
      some (p.1, ⟨(p.2 : ℕ) - 1, lt_of_le_of_lt (Nat.sub_le _ _) p.2.isLt⟩)
    else none
  | .right =>
    if h : (p.1 : ℕ) + 1 < n then some (⟨(p.1 : ℕ) + 1, h⟩, p.2) else none
  | .bottom =>
    if h : (p.2 : ℕ) + 1 < n then some (p.1, ⟨(p.2 : ℕ) + 1, h⟩) else none
  | .left =>
    if h : 0 < (p.1 : ℕ) then
      some (⟨(p.1 : ℕ) - 1, lt_of_le_of_lt (Nat.sub_le _ _) p.1.isLt⟩, p.2)
    else none

/-- The unvisited grid-adjacent neighbors of a cell together with the wall
leading to each, in source order top, right, bottom, left. -/
def unvisitedNbrs {n : ℕ} (g : Grid n) (p : Pos n) : List (Pos n × Wall) :=
  [Wall.top, Wall.right, Wall.bottom, Wall.left].filterMap fun w =>
    match wallNeighbor p w with
    | some q => if (g q).visited then none else some (q, w)
    | none => none

/-- Carve the passage picked by one generateMaze iteration: clear wall w of
the current cell, clear the opposite wall of the chosen neighbor, and mark
the neighbor visited. -/
def carve {n : ℕ} (g : Grid n) (cur : Pos n) (w : Wall) (nxt : Pos n) : Grid n :=
  let g1 := setCell g cur ((g cur).setWall w false)
  setCell g1 nxt (((g1 nxt).setWall w.opp false) |> fun c => { c with visited := true })

/-- Number of cells still unvisited, the termination measure of the carve loop. -/
def unvisitedCount {n : ℕ} (g : Grid n) : ℕ :=
  (Finset.univ.filter fun p : Pos n => ¬ (g p).visited = true).card

theorem mem_unvisitedNbrs {n : ℕ} {g : Grid n} {p q : Pos n} {w : Wall}
    (h : (q, w) ∈ unvisitedNbrs g p) :
    wallNeighbor p w = some q ∧ (g q).visited = false := by
  simp only [unvisitedNbrs, List.mem_filterMap] at h
  obtain ⟨w', _, hw'⟩ := h
  cases hnb : wallNeighbor p w' with
  | none => rw [hnb] at hw'; simp at hw'
  | some r =>
    rw [hnb] at hw'
    by_cases hv : (g r).visited = true
    · simp [hv] at hw'
    · simp [hv] at hw'
      obtain ⟨hq, hw⟩ := hw'
      subst hq; subst hw
      exact ⟨hnb, by simpa using hv⟩

theorem setWall_visited (c : Cell) (w : Wall) (b : Bool) :
    (c.setWall w b).visited = c.visited := by
  cases w <;> rfl

theorem carve_apply {n : ℕ} (g : Grid n) (cur : Pos n) (w : Wall) (nxt : Pos n)
    (p : Pos n) :
    (carve g cur w nxt) p =
      if p = nxt then
        { (if nxt = cur then (g cur).setWall w false else g nxt).setWall w.opp false
          with visited := true }
      else if p = cur then (g cur).setWall w false
      else g p := by
  unfold carve setCell
  by_cases h1 : p = nxt
  · subst h1; rfl
  · by_cases h2 : p = cur <;> simp [h1, h2]

theorem carve_visited {n : ℕ} (g : Grid n) (cur : Pos n) (w : Wall) (nxt : Pos n)
    (p : Pos n) :
    ((carve g cur w nxt) p).visited = if p = nxt then true else (g p).visited := by
  rw [carve_apply]
  by_cases h1 : p = nxt
  · simp [h1]
  · by_cases h2 : p = cur
    · subst h2; simp [h1, setWall_visited]
    · simp [h1, h2]

theorem unvisitedCount_carve {n : ℕ} (g : Grid n) (cur : Pos n) (w : Wall)
    (nxt : Pos n) (hnx : (g nxt).visited = false) :
    unvisitedCount (carve g cur w nxt) + 1 = unvisitedCount g := by
  classical
  unfold unvisitedCount
  have hset : (Finset.univ.filter fun p : Pos n => ¬ ((carve g cur w nxt) p).visited = true)
      = (Finset.univ.filter fun p : Pos n => ¬ (g p).visited = true).erase nxt := by
    ext p
    simp only [Finset.mem_filter, Finset.mem_univ, true_and, Finset.mem_erase,
      carve_visited]
    by_cases h : p = nxt <;> simp [h]
  rw [hset]
  have hmem : nxt ∈ (Finset.univ.filter fun p : Pos n => ¬ (g p).visited = true) := by
    simp [hnx]
  rw [Finset.card_erase_of_mem hmem]
  have hpos : 0 < (Finset.univ.filter fun p : Pos n => ¬ (g p).visited = true).card :=
    Finset.card_pos.mpr ⟨nxt, hmem⟩
  omega

/-- The main carving loop of generateMaze.  The stack is held head-first
(the source pushes and reads at the array end); rand t chooses which of the
unvisited neighbors is carved at iteration t, exactly like
Math.floor(Math.random() * neighbors.length). -/
def carveLoop {n : ℕ} (rand : ℕ → ℕ) (t : ℕ) (g : Grid n) (stack : List (Pos n)) :
    Grid n :=
  match stack with
  | [] => g
  | cur :: rest =>
    if h : (unvisitedNbrs g cur).length ≠ 0 then
      carveLoop rand (t + 1)
        (carve g cur
          ((unvisitedNbrs g cur).get
            ⟨rand t % (unvisitedNbrs g cur).length, Nat.mod_lt _ (Nat.pos_of_ne_zero h)⟩).2
          ((unvisitedNbrs g cur).get
            ⟨rand t % (unvisitedNbrs g cur).length, Nat.mod_lt _ (Nat.pos_of_ne_zero h)⟩).1)
        (((unvisitedNbrs g cur).get
            ⟨rand t % (unvisitedNbrs g cur).length, Nat.mod_lt _ (Nat.pos_of_ne_zero h)⟩).1
          :: cur :: rest)
    else
      carveLoop rand (t + 1) g rest
termination_by 2 * unvisitedCount g + stack.length
decreasing_by
  · have hlt : rand t % (unvisitedNbrs g cur).length < (unvisitedNbrs g cur).length :=
      Nat.mod_lt _ (Nat.pos_of_ne_zero h)
    have hmem : (unvisitedNbrs g cur).get ⟨rand t % (unvisitedNbrs g cur).length, hlt⟩
        ∈ unvisitedNbrs g cur := List.get_mem _ _ _
    have hfacts := mem_unvisitedNbrs hmem
    have hcnt := unvisitedCount_carve g cur
      ((unvisitedNbrs g cur).get ⟨rand t % (unvisitedNbrs g cur).length, hlt⟩).2
      ((unvisitedNbrs g cur).get ⟨rand t % (unvisitedNbrs g cur).length, hlt⟩).1 hfacts.2
    simp only [List.length_cons]
    omega
  · simp only [List.length_cons]
    omega

/-- The start cell (0, 0) of generateMaze. -/
def startPos (n : ℕ) (hn : 0 < n) : Pos n := (⟨0, hn⟩, ⟨0, hn⟩)

/-- generateMaze of the source: all cells fully walled and unvisited, the
start cell (0, 0) marked visited and pushed, then the carving loop. -/
def generateMaze (n : ℕ) (rand : ℕ → ℕ) : Grid n :=
  if hn : 0 < n then
    let s := startPos n hn
    let g0 := setCell (initGrid n) s ⟨true, true, true, true, true⟩
    carveLoop rand 0 g0 [s]
  else initGrid n

theorem Wall.opp_opp (w : Wall) : w.opp.opp = w := by cases w <;> rfl

theorem wallB_setWall (c : Cell) (w w' : Wall) (b : Bool) :
    (c.setWall w b).wallB w' = if w' = w then b else c.wallB w' := by
  cases w <;> cases w' <;> simp [Cell.setWall, Cell.wallB]

/-- Coordinate description of the neighbor through each wall. -/
def nbrSpec (n : ℕ) (p q : Pos n) : Wall → Prop
  | .top => (q.1 : ℕ) = (p.1 : ℕ) ∧ (q.2 : ℕ) + 1 = (p.2 : ℕ)
  | .right => (q.1 : ℕ) = (p.1 : ℕ) + 1 ∧ (q.2 : ℕ) = (p.2 : ℕ)
  | .bottom => (q.1 : ℕ) = (p.1 : ℕ) ∧ (q.2 : ℕ) = (p.2 : ℕ) + 1
  | .left => (q.1 : ℕ) + 1 = (p.1 : ℕ) ∧ (q.2 : ℕ) = (p.2 : ℕ)

theorem wallNeighbor_iff {n : ℕ} (p q : Pos n) (w : Wall) :
    wallNeighbor p w = some q ↔ nbrSpec n p q w := by
  have hq1 := q.1.isLt
  have hq2 := q.2.isLt
  have hp1 := p.1.isLt
  have hp2 := p.2.isLt
  cases w <;> simp only [wallNeighbor, nbrSpec] <;> split <;> rename_i hb <;>
    first
    | (rw [Option.some_inj, Prod.ext_iff]
       simp only [Fin.ext_iff]
       constructor
       · rintro ⟨ha, hc⟩; omega
       · rintro ⟨ha, hc⟩; exact ⟨by omega, by omega⟩)
    | (constructor
       · intro h; exact Option.noConfusion h
       · rintro ⟨ha, hc⟩; exfalso; omega)

theorem wallNeighbor_ne {n : ℕ} {p q : Pos n} {w : Wall}
    (h : wallNeighbor p w = some q) : q ≠ p := by
  rw [wallNeighbor_iff] at h
  intro hq
  subst hq
  cases w <;> simp only [nbrSpec] at h <;> omega

theorem wallNeighbor_symm {n : ℕ} {p q : Pos n} {w : Wall}
    (h : wallNeighbor p w = some q) : wallNeighbor q w.opp = some p := by
  rw [wallNeighbor_iff] at h
  rw [wallNeighbor_iff]
  cases w <;> simp only [nbrSpec, Wall.opp] at * <;> omega

theorem wallNeighbor_dx {n : ℕ} {p q : Pos n} {w : Wall}
    (h : wallNeighbor p w = some q) :
    (q.1 : ℕ) ≤ (p.1 : ℕ) + 1 ∧ (p.1 : ℕ) ≤ (q.1 : ℕ) + 1 := by
  rw [wallNeighbor_iff] at h
  cases w <;> simp only [nbrSpec] at h <;> omega

/-- Passage open from p to q: q is the grid neighbor of p through some wall
whose flag on p is cleared.  This is the directional passability the source
reads (findShortestPath and canMove test only the current cell's own flags). -/
def openDir {n : ℕ} (g : Grid n) (p q : Pos n) : Prop :=
  ∃ w, wallNeighbor p w = some q ∧ (g p).wallB w = false

instance {n : ℕ} (g : Grid n) (p q : Pos n) : Decidable (openDir g p q) := by
  unfold openDir
  have : ∀ w : Wall, Decidable (wallNeighbor p w = some q ∧ (g p).wallB w = false) :=
    fun w => instDecidableAnd
  exact decidable_of_iff
    (∃ w ∈ [Wall.top, Wall.right, Wall.bottom, Wall.left],
      wallNeighbor p w = some q ∧ (g p).wallB w = false)
    (by constructor
        · rintro ⟨w, _, hw⟩; exact ⟨w, hw⟩
        · rintro ⟨w, hw⟩; exact ⟨w, by cases w <;> simp, hw⟩)

/-- Wall consistency (spec section 3): the flag a cell holds toward a grid
neighbor equals the flag that neighbor holds back. -/
def consistent {n : ℕ} (g : Grid n) : Prop :=
  ∀ p q (w : Wall), wallNeighbor p w = some q → (g p).wallB w = (g q).wallB w.opp

/-- Border walls of the grid are intact (a flag toward the outside is set). -/
def borderClosed {n : ℕ} (g : Grid n) : Prop :=
  ∀ (p : Pos n) (w : Wall), wallNeighbor p w = none → (g p).wallB w = true

/-- Undirected passable adjacency between two cells. -/
def adjOpen {n : ℕ} (g : Grid n) (p q : Pos n) : Prop :=
  openDir g p q ∨ openDir g q p

theorem adjOpen_symm {n : ℕ} {g : Grid n} {p q : Pos n} (h : adjOpen g p q) :
    adjOpen g q p := h.elim .inr .inl

theorem adjOpen_ne {n : ℕ} {g : Grid n} {p q : Pos n} (h : adjOpen g p q) : p ≠ q := by
  rcases h with ⟨w, hw, _⟩ | ⟨w, hw, _⟩
  · exact fun he => wallNeighbor_ne hw (he ▸ rfl)
  · exact fun he => (wallNeighbor_ne hw (he ▸ rfl)).elim

/-- The passable-adjacency graph of a grid: an edge between two grid-adjacent
cells iff the shared wall flag is cleared on either side (on a consistent
grid, equivalently on both sides). -/
def mazeGraph {n : ℕ} (g : Grid n) : SimpleGraph (Pos n) where
  Adj p q := adjOpen g p q
  symm _ _ := adjOpen_symm
  loopless p h := adjOpen_ne h rfl

instance {n : ℕ} (g : Grid n) : DecidableRel (mazeGraph g).Adj := fun _ _ => by
  unfold mazeGraph adjOpen; infer_instance

theorem wallNeighbor_det {n : ℕ} {p q q' : Pos n} {w : Wall}
    (h : wallNeighbor p w = some q) (h' : wallNeighbor p w = some q') : q = q' := by
  rw [h] at h'; exact Option.some.inj h'

theorem wallNeighbor_inj_left {n : ℕ} {p p' q : Pos n} {w : Wall}
    (h : wallNeighbor p w = some q) (h' : wallNeighbor p' w = some q) : p = p' := by
  rw [wallNeighbor_iff] at h h'
  cases w <;> simp only [nbrSpec] at h h' <;>
    exact Prod.ext (Fin.ext (by omega)) (Fin.ext (by omega))

theorem Wall.opp_inj {w w' : Wall} (h : w.opp = w'.opp) : w = w' := by
  have := congrArg Wall.opp h
  rwa [Wall.opp_opp, Wall.opp_opp] at this

theorem wallB_setVisited (c : Cell) (b : Bool) (w : Wall) :
    ({ c with visited := b }).wallB w = c.wallB w := by
  cases w <;> rfl

theorem carve_wallB {n : ℕ} {g : Grid n} {cur nxt : Pos n} (hne : nxt ≠ cur)
    (w w' : Wall) (p : Pos n) :
    ((carve g cur w nxt) p).wallB w' =
      if p = cur ∧ w' = w then false
      else if p = nxt ∧ w' = w.opp then false
      else (g p).wallB w' := by
  rw [carve_apply]
  by_cases h1 : p = nxt
  · subst h1
    rw [if_pos rfl, if_neg hne, wallB_setVisited, wallB_setWall]
    have hpc : ¬(p = cur ∧ w' = w) := fun hh => hne hh.1
    rw [if_neg hpc]
    by_cases h2 : w' = Wall.opp w
    · simp [h2]
    · simp [h2]
  · rw [if_neg h1]
    by_cases h2 : p = cur
    · subst h2
      rw [if_pos rfl, wallB_setWall]
      have hpn : ¬(p = nxt ∧ w' = Wall.opp w) := fun hh => h1 hh.1
      rw [if_neg hpn]
      by_cases h3 : w' = w
      · simp [h3]
      · simp [h3]
    · rw [if_neg h2, if_neg (fun hh => h2 hh.1), if_neg (fun hh => h1 hh.1)]

theorem visited_carve_mono {n : ℕ} {g : Grid n} {cur nxt p : Pos n} {w : Wall}
    (h : (g p).visited = true) : ((carve g cur w nxt) p).visited = true := by
  rw [carve_visited]
  by_cases h1 : p = nxt <;> simp [h1, h]

theorem openDir_carve_iff {n : ℕ} {g : Grid n} {cur nxt : Pos n} {w : Wall}
    (hnb : wallNeighbor cur w = some nxt) (p q : Pos n) :
    openDir (carve g cur w nxt) p q ↔
      openDir g p q ∨ (p = cur ∧ q = nxt) ∨ (p = nxt ∧ q = cur) := by
  have hne : nxt ≠ cur := wallNeighbor_ne hnb
  constructor
  · rintro ⟨w', hw', hflag⟩
    rw [carve_wallB hne] at hflag
    by_cases h1 : p = cur ∧ w' = w
    · obtain ⟨rfl, rfl⟩ := h1
      exact Or.inr (Or.inl ⟨rfl, wallNeighbor_det hw' hnb⟩)
    · rw [if_neg h1] at hflag
      by_cases h2 : p = nxt ∧ w' = Wall.opp w
      · obtain ⟨rfl, rfl⟩ := h2
        exact Or.inr (Or.inr ⟨rfl, wallNeighbor_det hw' (wallNeighbor_symm hnb)⟩)
      · rw [if_neg h2] at hflag
        exact Or.inl ⟨w', hw', hflag⟩
  · rintro (⟨w', hw', hflag⟩ | ⟨rfl, rfl⟩ | ⟨rfl, rfl⟩)
    · refine ⟨w', hw', ?_⟩
      rw [carve_wallB hne]
      by_cases h1 : p = cur ∧ w' = w
      · simp [h1]
      · rw [if_neg h1]
        by_cases h2 : p = nxt ∧ w' = Wall.opp w
        · simp [h2]
        · rw [if_neg h2]; exact hflag
    · exact ⟨w, hnb, by rw [carve_wallB hne]; simp⟩
    · refine ⟨Wall.opp w, wallNeighbor_symm hnb, ?_⟩
      rw [carve_wallB hne]
      rw [if_neg (fun hh => hne hh.1)]
      simp

/-- Introduction form for membership in the unvisited-neighbor list. -/
theorem unvisitedNbrs_mem_intro {n : ℕ} {g : Grid n} {p q : Pos n} {w : Wall}
    (hnb : wallNeighbor p w = some q) (hv : (g q).visited = false) :
    (q, w) ∈ unvisitedNbrs g p := by
  simp only [unvisitedNbrs, List.mem_filterMap]
  refine ⟨w, by cases w <;> simp, ?_⟩
  rw [hnb]
  simp [hv]

/-- The ghost tree structure maintained during carving: birth timestamps are
injective on visited cells, the root is earliest, every visited non-root cell
has exactly one passable neighbor born earlier (its carve parent), and every
open passage joins cells of different births. -/
structure TreeInv {n : ℕ} (g : Grid n) (root : Pos n) (birth : Pos n → ℕ) (T : ℕ) :
    Prop where
  bound : ∀ p, (g p).visited = true → birth p < T
  inj : ∀ p q, (g p).visited = true → (g q).visited = true → birth p = birth q → p = q
  rootmin : ∀ p, (g p).visited = true → p ≠ root → birth root < birth p
  parent_ex : ∀ p, (g p).visited = true → p ≠ root → ∃ q, adjOpen g p q ∧ birth q < birth p
  parent_uniq : ∀ p q r, adjOpen g p q → adjOpen g p r → birth q < birth p →
    birth r < birth p → q = r
  edge_birth : ∀ p q, adjOpen g p q → birth p ≠ birth q

/-- The full loop invariant of the carve loop of generateMaze. -/
structure CarveInv {n : ℕ} (g : Grid n) (root : Pos n) (stack : List (Pos n)) :
    Prop where
  sv : ∀ p ∈ stack, (g p).visited = true
  rv : (g root).visited = true
  cons : consistent g
  border : borderClosed g
  ev : ∀ p q, openDir g p q → (g p).visited = true ∧ (g q).visited = true
  closed : ∀ p, (g p).visited = true → p ∉ stack → ∀ (w : Wall) q,
    wallNeighbor p w = some q → (g q).visited = true
  tree : ∃ birth T, TreeInv g root birth T

theorem carveInv_carve {n : ℕ} {g : Grid n} {root cur nxt : Pos n} {w : Wall}
    {rest : List (Pos n)}
    (hInv : CarveInv g root (cur :: rest))
    (hnb : wallNeighbor cur w = some nxt) (hnx : (g nxt).visited = false) :
    CarveInv (carve g cur w nxt) root (nxt :: cur :: rest) := by
  have hne : nxt ≠ cur := wallNeighbor_ne hnb
  have hcv : (g cur).visited = true := hInv.sv cur (List.mem_cons_self _ _)
  have hvis : ∀ p, ((carve g cur w nxt) p).visited = true ↔
      (p = nxt ∨ (g p).visited = true) := by
    intro p; rw [carve_visited]; by_cases h : p = nxt <;> simp [h]
  have hod := openDir_carve_iff (g := g) hnb
  have hadj : ∀ p q, adjOpen (carve g cur w nxt) p q ↔
      adjOpen g p q ∨ (p = cur ∧ q = nxt) ∨ (p = nxt ∧ q = cur) := by
    intro p q
    unfold adjOpen
    rw [hod p q, hod q p]
    constructor
    · rintro ((h | h | h) | (h | h | h))
      · exact Or.inl (Or.inl h)
      · exact Or.inr (Or.inl h)
      · exact Or.inr (Or.inr h)
      · exact Or.inl (Or.inr h)
      · exact Or.inr (Or.inr ⟨h.2, h.1⟩)
      · exact Or.inr (Or.inl ⟨h.2, h.1⟩)
    · rintro ((h | h) | h | h)
      · exact Or.inl (Or.inl h)
      · exact Or.inr (Or.inl h)
      · exact Or.inl (Or.inr (Or.inl h))
      · exact Or.inl (Or.inr (Or.inr h))
  have hnoedge : ∀ q, ¬ adjOpen g nxt q := by
    rintro q (h | h)
    · exact absurd (hInv.ev _ _ h).1 (by simp [hnx])
    · exact absurd (hInv.ev _ _ h).2 (by simp [hnx])
  have hrootne : root ≠ nxt := by
    intro h
    have hv := hInv.rv
    rw [h, hnx] at hv
    exact Bool.noConfusion hv
  constructor
  case sv =>
    intro p hp
    rcases List.mem_cons.mp hp with h | h
    · subst h; exact (hvis p).mpr (Or.inl rfl)
    · exact (hvis p).mpr (Or.inr (hInv.sv p h))
  case rv => exact (hvis root).mpr (Or.inr hInv.rv)
  case cons =>
    intro p q w' hw'
    rw [carve_wallB hne, carve_wallB hne]
    by_cases h1 : p = cur ∧ w' = w
    · obtain ⟨rfl, rfl⟩ := h1
      have hq : q = nxt := wallNeighbor_det hw' hnb
      subst hq
      rw [if_pos ⟨rfl, rfl⟩, if_neg (fun hh => hne hh.1), if_pos ⟨rfl, rfl⟩]
    · rw [if_neg h1]
      by_cases h2 : p = nxt ∧ w' = Wall.opp w
      · obtain ⟨rfl, rfl⟩ := h2
        have hq : q = cur := wallNeighbor_det hw' (wallNeighbor_symm hnb)
        subst hq
        rw [if_pos ⟨rfl, rfl⟩, if_pos ⟨rfl, Wall.opp_opp w⟩]
      · rw [if_neg h2]
        have hr1 : ¬(q = cur ∧ w'.opp = w) := by
          rintro ⟨rfl, hwo⟩
          have hsym := wallNeighbor_symm hw'
          rw [hwo] at hsym
          have hp : p = nxt := wallNeighbor_det hsym hnb
          have hw'e : w' = Wall.opp w := Wall.opp_inj (by rw [hwo, Wall.opp_opp])
          exact h2 ⟨hp, hw'e⟩
        have hr2 : ¬(q = nxt ∧ w'.opp = Wall.opp w) := by
          rintro ⟨rfl, hwo⟩
          have hw'e : w' = w := Wall.opp_inj hwo
          subst hw'e
          exact h1 ⟨wallNeighbor_inj_left hw' hnb, rfl⟩
        rw [if_neg hr1, if_neg hr2]
        exact hInv.cons p q w' hw'
  case border =>
    intro p w' hw'
    rw [carve_wallB hne]
    have hr1 : ¬(p = cur ∧ w' = w) := by
      rintro ⟨rfl, rfl⟩; rw [hw'] at hnb; exact Option.noConfusion hnb
    have hr2 : ¬(p = nxt ∧ w' = Wall.opp w) := by
      rintro ⟨rfl, rfl⟩
      have hs := wallNeighbor_symm hnb
      rw [hw'] at hs
      exact Option.noConfusion hs
    rw [if_neg hr1, if_neg hr2]
    exact hInv.border p w' hw'
  case ev =>
    intro p q hpq
    rcases (hod p q).mp hpq with h | ⟨rfl, rfl⟩ | ⟨rfl, rfl⟩
    · obtain ⟨h1, h2⟩ := hInv.ev p q h
      exact ⟨(hvis p).mpr (Or.inr h1), (hvis q).mpr (Or.inr h2)⟩
    · exact ⟨(hvis _).mpr (Or.inr hcv), (hvis _).mpr (Or.inl rfl)⟩
    · exact ⟨(hvis _).mpr (Or.inl rfl), (hvis _).mpr (Or.inr hcv)⟩
  case closed =>
    intro p hp hnot w' q hw'
    have hpn : p ≠ nxt := fun h => hnot (h ▸ List.mem_cons_self _ _)
    have hpv : (g p).visited = true := by
      rcases (hvis p).mp hp with h | h
      · exact absurd h hpn
      · exact h
    have hnot' : p ∉ cur :: rest := fun h => hnot (List.mem_cons_of_mem _ h)
    exact (hvis q).mpr (Or.inr (hInv.closed p hpv hnot' w' q hw'))
  case tree =>
    obtain ⟨birth, T, hT⟩ := hInv.tree
    refine ⟨fun p => if p = nxt then T else birth p, T + 1, ?_⟩
    set b' : Pos n → ℕ := fun p => if p = nxt then T else birth p with hb'
    have hbn : ∀ p, p ≠ nxt → b' p = birth p := by
      intro p hp; simp [hb', hp]
    have hbT : b' nxt = T := by simp [hb']
    have hvne : ∀ p, (g p).visited = true → p ≠ nxt := by
      intro p hp h; rw [h] at hp; simp [hnx] at hp
    have hadjv : ∀ p q, adjOpen g p q →
        (g p).visited = true ∧ (g q).visited = true := by
      intro p q h
      rcases h with h' | h'
      · exact hInv.ev p q h'
      · exact ⟨(hInv.ev q p h').2, (hInv.ev q p h').1⟩
    constructor
    case bound =>
      intro p hp
      rcases (hvis p).mp hp with h | h
      · rw [h, hbT]; omega
      · rw [hbn p (hvne p h)]
        have := hT.bound p h
        omega
    case inj =>
      intro p q hp hq he
      rcases (hvis p).mp hp with h1 | h1 <;> rcases (hvis q).mp hq with h2 | h2
      · rw [h1, h2]
      · rw [h1, hbT, hbn q (hvne q h2)] at he
        exact absurd he.symm (Nat.ne_of_lt (hT.bound q h2))
      · rw [h2, hbT, hbn p (hvne p h1)] at he
        exact absurd he (Nat.ne_of_lt (hT.bound p h1))
      · rw [hbn p (hvne p h1), hbn q (hvne q h2)] at he
        exact hT.inj p q h1 h2 he
    case rootmin =>
      intro p hp hpr
      rw [hbn root hrootne]
      rcases (hvis p).mp hp with h | h
      · rw [h, hbT]
        exact hT.bound root hInv.rv
      · rw [hbn p (hvne p h)]
        exact hT.rootmin p h hpr
    case parent_ex =>
      intro p hp hpr
      rcases (hvis p).mp hp with h | h
      · refine ⟨cur, ?_, ?_⟩
        · exact (hadj _ _).mpr (Or.inr (Or.inr ⟨h, rfl⟩))
        · rw [h, hbT, hbn cur (hvne cur hcv)]
          exact hT.bound cur hcv
      · obtain ⟨q, hq, hlt⟩ := hT.parent_ex p h hpr
        have hqv : (g q).visited = true := (hadjv p q hq).2
        refine ⟨q, (hadj _ _).mpr (Or.inl hq), ?_⟩
        rw [hbn p (hvne p h), hbn q (hvne q hqv)]
        exact hlt
    case parent_uniq =>
      intro p q r hq hr hq' hr'
      by_cases hp : p = nxt
      · have hcq : q = cur := by
          rcases (hadj _ _).mp hq with h | ⟨h1, _⟩ | ⟨_, h2⟩
          · rw [hp] at h; exact absurd h (hnoedge q)
          · rw [hp] at h1; exact absurd h1 hne
          · exact h2
        have hcr : r = cur := by
          rcases (hadj _ _).mp hr with h | ⟨h1, _⟩ | ⟨_, h2⟩
          · rw [hp] at h; exact absurd h (hnoedge r)
          · rw [hp] at h1; exact absurd h1 hne
          · exact h2
        rw [hcq, hcr]
      · have hqmain : adjOpen g p q ∧ q ≠ nxt := by
          rcases (hadj _ _).mp hq with h | ⟨h1, h2⟩ | ⟨h1, _⟩
          · refine ⟨h, ?_⟩
            intro hx
            rw [hx] at h
            exact hnoedge p (adjOpen_symm h)
          · exfalso
            rw [h1, h2, hbT, hbn cur (hvne cur hcv)] at hq'
            exact absurd hq' (Nat.not_lt.mpr (Nat.le_of_lt (hT.bound cur hcv)))
          · exact absurd h1 hp
        have hrmain : adjOpen g p r ∧ r ≠ nxt := by
          rcases (hadj _ _).mp hr with h | ⟨h1, h2⟩ | ⟨h1, _⟩
          · refine ⟨h, ?_⟩
            intro hx
            rw [hx] at h
            exact hnoedge p (adjOpen_symm h)
          · exfalso
            rw [h1, h2, hbT, hbn cur (hvne cur hcv)] at hr'
            exact absurd hr' (Nat.not_lt.mpr (Nat.le_of_lt (hT.bound cur hcv)))
          · exact absurd h1 hp
        rw [hbn p hp, hbn q hqmain.2] at hq'
        rw [hbn p hp, hbn r hrmain.2] at hr'
        exact hT.parent_uniq p q r hqmain.1 hrmain.1 hq' hr'
    case edge_birth =>
      intro p q hpq
      rcases (hadj _ _).mp hpq with h | ⟨h1, h2⟩ | ⟨h1, h2⟩
      · obtain ⟨hp', hq'⟩ := hadjv p q h
        rw [hbn p (hvne p hp'), hbn q (hvne q hq')]
        exact hT.edge_birth p q h
      · rw [h1, h2, hbT, hbn cur (hvne cur hcv)]
        exact Nat.ne_of_lt (hT.bound cur hcv)
      · rw [h1, h2, hbT, hbn cur (hvne cur hcv)]
        exact Nat.ne_of_gt (hT.bound cur hcv)

theorem carveInv_pop {n : ℕ} {g : Grid n} {root cur : Pos n} {rest : List (Pos n)}
    (hInv : CarveInv g root (cur :: rest)) (hemp : unvisitedNbrs g cur = []) :
    CarveInv g root rest := by
  constructor
  case sv => exact fun p hp => hInv.sv p (List.mem_cons_of_mem _ hp)
  case rv => exact hInv.rv
  case cons => exact hInv.cons
  case border => exact hInv.border
  case ev => exact hInv.ev
  case closed =>
    intro p hp hnot w q hw
    by_cases hpc : p = cur
    · subst hpc
      by_contra hqv
      have hqv' : (g q).visited = false := by
        cases hb : (g q).visited
        · rfl
        · exact absurd hb hqv
      have hmem := unvisitedNbrs_mem_intro hw hqv'
      rw [hemp] at hmem
      exact absurd hmem (List.not_mem_nil _)
    · refine hInv.closed p hp ?_ w q hw
      intro hmem
      rcases List.mem_cons.mp hmem with h | h
      · exact hpc h
      · exact hnot h
  case tree => exact hInv.tree

theorem carveLoop_inv {n : ℕ} (rand : ℕ → ℕ) (root : Pos n) (t : ℕ) (g : Grid n)
    (stack : List (Pos n)) (hInv : CarveInv g root stack) :
    CarveInv (carveLoop rand t g stack) root [] := by
  induction t, g, stack using carveLoop.induct (n := n) rand with
  | case1 t g => rwa [carveLoop]
  | case2 t g cur rest h ih =>
    rw [carveLoop]
    simp only [dif_pos h]
    apply ih
    have hlt : rand t % (unvisitedNbrs g cur).length < (unvisitedNbrs g cur).length :=
      Nat.mod_lt _ (Nat.pos_of_ne_zero h)
    have hmem : (unvisitedNbrs g cur).get ⟨rand t % (unvisitedNbrs g cur).length, hlt⟩
        ∈ unvisitedNbrs g cur := List.get_mem _ _ _
    have hfacts := mem_unvisitedNbrs hmem
    exact carveInv_carve hInv hfacts.1 hfacts.2
  | case3 t g cur rest h ih =>
    rw [carveLoop]
    simp only [dif_neg h]
    apply ih
    have hemp : unvisitedNbrs g cur = [] := by
      cases hc : unvisitedNbrs g cur with
      | nil => rfl
      | cons a as => rw [hc] at h; simp at h
    exact carveInv_pop hInv hemp

theorem carveInv_init {n : ℕ} (hn : 0 < n) :
    CarveInv (setCell (initGrid n) (startPos n hn) ⟨true, true, true, true, true⟩)
      (startPos n hn) [startPos n hn] := by
  set g0 := setCell (initGrid n) (startPos n hn) ⟨true, true, true, true, true⟩ with hg0
  have happ : ∀ p, g0 p = if p = startPos n hn
      then (⟨true, true, true, true, true⟩ : Cell)
      else ⟨true, true, true, true, false⟩ := by
    intro p
    rw [hg0]
    unfold setCell initGrid
    by_cases h : p = startPos n hn <;> simp [h]
  have hwall : ∀ p (w : Wall), (g0 p).wallB w = true := by
    intro p w
    rw [happ]
    by_cases h : p = startPos n hn <;> simp [h] <;> cases w <;> rfl
  have hvis : ∀ p, (g0 p).visited = true ↔ p = startPos n hn := by
    intro p
    rw [happ]
    by_cases h : p = startPos n hn <;> simp [h]
  have hnoopen : ∀ p q, ¬ openDir g0 p q := by
    rintro p q ⟨w, _, hflag⟩
    rw [hwall p w] at hflag
    exact Bool.noConfusion hflag
  constructor
  case sv =>
    intro p hp
    rcases List.mem_cons.mp hp with h | h
    · exact (hvis p).mpr h
    · exact absurd h (List.not_mem_nil _)
  case rv => exact (hvis _).mpr rfl
  case cons => intro p q w _; rw [hwall, hwall]
  case border => intro p w _; exact hwall p w
  case ev => intro p q h; exact absurd h (hnoopen p q)
  case closed =>
    intro p hp hnot w q hw
    exact absurd (List.mem_singleton.mpr ((hvis p).mp hp)) hnot
  case tree =>
    refine ⟨fun _ => 0, 1, ?_⟩
    constructor
    case bound => intro p _; omega
    case inj =>
      intro p q hp hq _
      rw [(hvis p).mp hp, (hvis q).mp hq]
    case rootmin => intro p hp hpr; exact absurd ((hvis p).mp hp) hpr
    case parent_ex => intro p hp hpr; exact absurd ((hvis p).mp hp) hpr
    case parent_uniq =>
      intro p q r hq hr _ _
      exact absurd (hq.elim id (fun h => absurd h (hnoopen q p))) (hnoopen p q)
    case edge_birth =>
      intro p q h
      exact absurd (h.elim id (fun h' => absurd h' (hnoopen q p))) (hnoopen p q)

/-- One grid-adjacency step, ignoring walls. -/
def gridStep {n : ℕ} (p q : Pos n) : Prop := ∃ w : Wall, wallNeighbor p w = some q

theorem gridStep_reach {n : ℕ} (hn : 0 < n) :
    ∀ (k : ℕ) (p : Pos n), (p.1 : ℕ) + (p.2 : ℕ) = k →
      Relation.ReflTransGen gridStep (startPos n hn) p := by
  intro k
  induction k using Nat.strong_induction_on with
  | _ k ih =>
    intro p hk
    by_cases h1 : 0 < (p.1 : ℕ)
    · have hb : (p.1 : ℕ) - 1 < n := lt_of_le_of_lt (Nat.sub_le _ _) p.1.isLt
      have hst : gridStep ((⟨(p.1 : ℕ) - 1, hb⟩, p.2) : Pos n) p := by
        refine ⟨Wall.right, ?_⟩
        rw [wallNeighbor_iff]
        refine ⟨?_, rfl⟩
        show (p.1 : ℕ) = (p.1 : ℕ) - 1 + 1
        omega
      exact Relation.ReflTransGen.tail (ih ((p.1 : ℕ) - 1 + (p.2 : ℕ)) (by omega) _ rfl) hst
    · by_cases h2 : 0 < (p.2 : ℕ)
      · have hb : (p.2 : ℕ) - 1 < n := lt_of_le_of_lt (Nat.sub_le _ _) p.2.isLt
        have hst : gridStep ((p.1, ⟨(p.2 : ℕ) - 1, hb⟩) : Pos n) p := by
          refine ⟨Wall.bottom, ?_⟩
          rw [wallNeighbor_iff]
          refine ⟨rfl, ?_⟩
          show (p.2 : ℕ) = (p.2 : ℕ) - 1 + 1
          omega
        exact Relation.ReflTransGen.tail (ih ((p.1 : ℕ) + ((p.2 : ℕ) - 1)) (by omega) _ rfl) hst
      · have hp : p = startPos n hn := by
          unfold startPos
          exact Prod.ext (Fin.ext (by simp; omega)) (Fin.ext (by simp; omega))
        rw [hp]

theorem carveInvEnd_all_visited {n : ℕ} {g : Grid n} (hn : 0 < n)
    (hInv : CarveInv g (startPos n hn) []) : ∀ p, (g p).visited = true := by
  intro p
  have hreach := gridStep_reach hn ((p.1 : ℕ) + (p.2 : ℕ)) p rfl
  induction hreach with
  | refl => exact hInv.rv
  | tail hab hbc ih =>
    obtain ⟨w, hw⟩ := hbc
    exact hInv.closed _ ih (List.not_mem_nil _) w _ hw

/-- The facts generateMaze establishes about the grid it returns. -/
structure MazeFacts {n : ℕ} (g : Grid n) (root : Pos n) : Prop where
  allv : ∀ p, (g p).visited = true
  cons : consistent g
  border : borderClosed g
  tree : ∃ birth T, TreeInv g root birth T

theorem generateMaze_facts (n : ℕ) (hn : 0 < n) (rand : ℕ → ℕ) :
    MazeFacts (generateMaze n rand) (startPos n hn) := by
  have hInv : CarveInv (generateMaze n rand) (startPos n hn) [] := by
    unfold generateMaze
    rw [dif_pos hn]
    exact carveLoop_inv rand _ 0 _ _ (carveInv_init hn)
  exact ⟨carveInvEnd_all_visited hn hInv, hInv.cons, hInv.border, hInv.tree⟩

/-- A simple path between two cells: a duplicate-free list of cells starting
at a, ending at b, whose consecutive cells are grid-adjacent with the shared
wall open. -/
def IsSimplePath {n : ℕ} (g : Grid n) (a b : Pos n) (l : List (Pos n)) : Prop :=
  l.head? = some a ∧ l.getLast? = some b ∧ l.Chain' (adjOpen g) ∧ l.Nodup

theorem mem_of_getLast?_eq {α : Type _} {l : List α} {a : α}
    (h : l.getLast? = some a) : a ∈ l := by
  obtain ⟨hne, he⟩ := List.mem_getLast?_eq_getLast (x := a) (Option.mem_def.mpr h)
  rw [he]
  exact List.getLast_mem hne

theorem isSimplePath_reverse {n : ℕ} {g : Grid n} {a b : Pos n} {l : List (Pos n)}
    (h : IsSimplePath g a b l) : IsSimplePath g b a l.reverse := by
  obtain ⟨hh, hl, hch, hnd⟩ := h
  refine ⟨?_, ?_, ?_, List.nodup_reverse.mpr hnd⟩
  · rw [List.head?_reverse]; exact hl
  · rw [List.getLast?_reverse]; exact hh
  · rw [List.chain'_reverse]
    exact List.Chain'.imp (fun x y hxy => adjOpen_symm hxy) hch

theorem isSimplePath_self {n : ℕ} {g : Grid n} {a : Pos n} {l : List (Pos n)}
    (h : IsSimplePath g a a l) : l = [a] := by
  obtain ⟨hh, hl, _, hnd⟩ := h
  cases l with
  | nil => exact absurd hh (by simp)
  | cons x xs =>
    have hx : x = a := by simpa using hh
    subst hx
    cases xs with
    | nil => rfl
    | cons y rest =>
      exfalso
      have hl' : (y :: rest).getLast? = some x := by
        rw [← List.getLast?_cons_cons (a := x)]
        exact hl
      exact (List.nodup_cons.mp hnd).1 (mem_of_getLast?_eq hl')

theorem births_ascend {n : ℕ} {g : Grid n} {root : Pos n} {birth : Pos n → ℕ} {T : ℕ}
    (hall : ∀ p, (g p).visited = true) (hT : TreeInv g root birth T) :
    ∀ (l : List (Pos n)) (u v z : Pos n),
      List.Chain' (adjOpen g) (u :: v :: l) → (u :: v :: l).Nodup →
      birth u < birth v → (v :: l).getLast? = some z → birth v ≤ birth z := by
  intro l
  induction l with
  | nil =>
    intro u v z _ _ _ hz
    have : v = z := by simpa using hz
    rw [this]
  | cons w l' ih =>
    intro u v z hch hnd hlt hz
    have huv : adjOpen g u v := (List.chain'_cons.mp hch).1
    have hch' := (List.chain'_cons.mp hch).2
    have hvw : adjOpen g v w := (List.chain'_cons.mp hch').1
    have hunm : u ∉ v :: w :: l' := (List.nodup_cons.mp hnd).1
    have hnd' : (v :: w :: l').Nodup := (List.nodup_cons.mp hnd).2
    have huw : u ≠ w := fun he => hunm (he ▸ List.mem_cons_of_mem _ (List.mem_cons_self _ _))
    have hvne : v ≠ w := fun he => (List.nodup_cons.mp hnd').1 (he ▸ List.mem_cons_self _ _)
    have hw_gt : birth v < birth w := by
      rcases Nat.lt_trichotomy (birth w) (birth v) with h | h | h
      · exact absurd (hT.parent_uniq v u w (adjOpen_symm huv) hvw hlt h) huw
      · exact absurd (hT.inj w v (hall w) (hall v) h) (Ne.symm hvne)
      · exact h
    have hz' : (w :: l').getLast? = some z := by
      rw [← List.getLast?_cons_cons (a := v)]
      exact hz
    exact le_of_lt (lt_of_lt_of_le hw_gt (ih v w z hch' hnd' hw_gt hz'))

theorem simplePath_decompose {n : ℕ} {g : Grid n} {root : Pos n} {birth : Pos n → ℕ}
    {T : ℕ} (hall : ∀ p, (g p).visited = true) (hT : TreeInv g root birth T)
    {a b : Pos n} {l : List (Pos n)} (hsp : IsSimplePath g a b l) (hab : a ≠ b)
    (hba : birth b < birth a) :
    ∃ y l', l = a :: y :: l' ∧ IsSimplePath g y b (y :: l') ∧ adjOpen g a y ∧
      birth y < birth a := by
  obtain ⟨hh, hl, hch, hnd⟩ := hsp
  cases l with
  | nil => exact absurd hh (by simp)
  | cons x xs =>
    have hx : x = a := by simpa using hh
    subst hx
    cases xs with
    | nil => exact absurd (show x = b by simpa using hl) hab
    | cons y rest =>
      have hay : adjOpen g x y := (List.chain'_cons.mp hch).1
      have hxy : x ≠ y := fun he =>
        (List.nodup_cons.mp hnd).1 (he ▸ List.mem_cons_self _ _)
      have hlast : (y :: rest).getLast? = some b := by
        rw [← List.getLast?_cons_cons (a := x)]
        exact hl
      have hlt : birth y < birth x := by
        rcases Nat.lt_trichotomy (birth y) (birth x) with h | h | h
        · exact h
        · exact absurd (hT.inj y x (hall y) (hall x) h) (Ne.symm hxy)
        · exfalso
          have := births_ascend hall hT rest x y b hch hnd h hlast
          omega
      exact ⟨y, rest, rfl,
        ⟨rfl, hlast, (List.chain'_cons.mp hch).2, (List.nodup_cons.mp hnd).2⟩,
        hay, hlt⟩

theorem simplePath_unique {n : ℕ} {g : Grid n} {root : Pos n} {birth : Pos n → ℕ}
    {T : ℕ} (hall : ∀ p, (g p).visited = true) (hT : TreeInv g root birth T) :
    ∀ (s : ℕ) (a b : Pos n) (l1 l2 : List (Pos n)), birth a + birth b = s →
      IsSimplePath g a b l1 → IsSimplePath g a b l2 → l1 = l2 := by
  intro s
  induction s using Nat.strong_induction_on with
  | _ s ih =>
    intro a b l1 l2 hs h1 h2
    by_cases hab : a = b
    · subst hab
      rw [isSimplePath_self h1, isSimplePath_self h2]
    · rcases Nat.lt_trichotomy (birth b) (birth a) with hlt | heq | hgt
      · obtain ⟨y1, r1, he1, hp1, ha1, hb1⟩ := simplePath_decompose hall hT h1 hab hlt
        obtain ⟨y2, r2, he2, hp2, ha2, hb2⟩ := simplePath_decompose hall hT h2 hab hlt
        have hy : y1 = y2 := hT.parent_uniq a y1 y2 ha1 ha2 hb1 hb2
        subst hy
        have hre := ih (birth y1 + birth b) (by omega) y1 b _ _ rfl hp1 hp2
        rw [he1, he2]
        injection hre with h1' h2'
        rw [h1', h2']
      · exact absurd (hT.inj b a (hall b) (hall a) heq) (Ne.symm hab)
      · have h1r := isSimplePath_reverse h1
        have h2r := isSimplePath_reverse h2
        obtain ⟨y1, r1, he1, hp1, ha1, hb1⟩ :=
          simplePath_decompose hall hT h1r (Ne.symm hab) hgt
        obtain ⟨y2, r2, he2, hp2, ha2, hb2⟩ :=
          simplePath_decompose hall hT h2r (Ne.symm hab) hgt
        have hy : y1 = y2 := hT.parent_uniq b y1 y2 ha1 ha2 hb1 hb2
        subst hy
        have hre := ih (birth y1 + birth a) (by omega) y1 a _ _ rfl hp1 hp2
        have hrev : l1.reverse = l2.reverse := by
          rw [he1, he2]
          injection hre with h1' h2'
          rw [h1', h2']
        calc l1 = l1.reverse.reverse := (List.reverse_reverse _).symm
          _ = l2.reverse.reverse := by rw [hrev]
          _ = l2 := List.reverse_reverse _

theorem maze_reachable {n : ℕ} {g : Grid n} {root : Pos n} (hM : MazeFacts g root) :
    ∀ p, (mazeGraph g).Reachable root p := by
  obtain ⟨birth, T, hT⟩ := hM.tree
  have H : ∀ (k : ℕ) (p : Pos n), birth p = k → (mazeGraph g).Reachable root p := by
    intro k
    induction k using Nat.strong_induction_on with
    | _ k ih =>
      intro p hk
      by_cases hp : p = root
      · rw [hp]
      · obtain ⟨q, hq, hlt⟩ := hT.parent_ex p (hM.allv p) hp
        have hr := ih (birth q) (by omega) q rfl
        exact hr.trans (SimpleGraph.Adj.reachable (adjOpen_symm hq))
  exact fun p => H (birth p) p rfl

theorem simplePath_exists {n : ℕ} {g : Grid n}
    (hpre : (mazeGraph g).Preconnected) (a b : Pos n) :
    ∃ l, IsSimplePath g a b l := by
  obtain ⟨w⟩ := hpre a b
  refine ⟨(w.toPath : (mazeGraph g).Walk a b).support, ?_, ?_, ?_, ?_⟩
  · rw [SimpleGraph.Walk.support_eq_cons]
    rfl
  · rw [List.getLast?_eq_getLast_of_ne_nil (SimpleGraph.Walk.support_ne_nil _)]
    rw [SimpleGraph.Walk.getLast_support]
  · exact SimpleGraph.Walk.chain'_adj_support _
  · exact w.toPath.2.support_nodup

theorem maze_edge_count {n : ℕ} {g : Grid n} {root : Pos n} (hM : MazeFacts g root) :
    (mazeGraph g).edgeFinset.card + 1 = n * n := by
  classical
  obtain ⟨birth, T, hT⟩ := hM.tree
  have hpar : ∀ p : Pos n, p ≠ root → ∃ q, adjOpen g p q ∧ birth q < birth p :=
    fun p hp => hT.parent_ex p (hM.allv p) hp
  choose par hpadj hplt using hpar
  have hbij : (Finset.univ.erase root).card = (mazeGraph g).edgeFinset.card := by
    apply Finset.card_bij
      (fun (p : Pos n) (hp : p ∈ Finset.univ.erase root) =>
        Sym2.mk (p, par p (Finset.ne_of_mem_erase hp)))
    · intro p hp
      rw [SimpleGraph.mem_edgeFinset, SimpleGraph.mem_edgeSet]
      exact hpadj p (Finset.ne_of_mem_erase hp)
    · intro p1 hp1 p2 hp2 he
      rcases Sym2.mk_eq_mk_iff.mp he with h | h
      · exact (Prod.ext_iff.mp h).1
      · exfalso
        rw [Prod.ext_iff] at h
        obtain ⟨h1, h2⟩ := h
        have hb1 := hplt p1 (Finset.ne_of_mem_erase hp1)
        have hb2 := hplt p2 (Finset.ne_of_mem_erase hp2)
        simp only [Prod.fst_swap, Prod.snd_swap] at h1 h2
        have hx1 : birth p2 < birth p1 := by rw [← h2]; exact hb1
        have hx2 : birth p1 < birth p2 := by rw [h1]; exact hb2
        omega
    · intro e he
      rw [SimpleGraph.mem_edgeFinset] at he
      induction e using Sym2.ind with
      | _ u v =>
        rw [SimpleGraph.mem_edgeSet] at he
        have hadj : adjOpen g u v := he
        have hbne : birth u ≠ birth v := hT.edge_birth u v hadj
        have hkey : ∀ x y : Pos n, adjOpen g x y → birth y < birth x →
            ∃ (hx : x ∈ Finset.univ.erase root),
              Sym2.mk (x, par x (Finset.ne_of_mem_erase hx)) = Sym2.mk (x, y) := by
          intro x y hxy hlt
          have hxroot : x ≠ root := by
            intro hx
            have hyx : y ≠ root := by
              intro hy
              rw [hx, hy] at hlt
              omega
            have := hT.rootmin y (hM.allv y) hyx
            rw [hx] at hlt
            omega
          have hx : x ∈ Finset.univ.erase root :=
            Finset.mem_erase.mpr ⟨hxroot, Finset.mem_univ _⟩
          refine ⟨hx, ?_⟩
          have : par x (Finset.ne_of_mem_erase hx) = y :=
            hT.parent_uniq x _ y (hpadj x _) hxy (hplt x _) hlt
          rw [this]
        rcases Nat.lt_trichotomy (birth v) (birth u) with hlt | heq | hgt
        · obtain ⟨hx, hee⟩ := hkey u v hadj hlt
          exact ⟨u, hx, hee⟩
        · exact absurd heq hbne.symm
        · obtain ⟨hx, hee⟩ := hkey v u (adjOpen_symm hadj) hgt
          refine ⟨v, hx, ?_⟩
          rw [hee]
          exact Sym2.eq_swap
  have hn0 : 0 < n := lt_of_le_of_lt (Nat.zero_le _) root.1.isLt
  have hcard : (Finset.univ.erase root).card + 1 = n * n := by
    rw [Finset.card_erase_of_mem (Finset.mem_univ _), Finset.card_univ]
    have hc : Fintype.card (Pos n) = n * n := by
      rw [Fintype.card_prod, Fintype.card_fin]
    rw [hc]
    have := Nat.mul_pos hn0 hn0
    omega
  rw [← hbij]
  exact hcard

/-- C1: for every size at least 1 and every random stream, the grid returned
by generateMaze has a passable-adjacency graph that is connected, has exactly
size squared minus one edges, and admits exactly one simple path between any
two cells: a perfect maze with no cycles and no isolated cells. -/
theorem claim1_perfect_maze (n : ℕ) (hn : 1 ≤ n) (rand : ℕ → ℕ) :
    (mazeGraph (generateMaze n rand)).Connected ∧
    (mazeGraph (generateMaze n rand)).edgeFinset.card = n ^ 2 - 1 ∧
    ∀ a b : Pos n, ∃! l : List (Pos n), IsSimplePath (generateMaze n rand) a b l := by
  have hM := generateMaze_facts n hn rand
  have hreach := maze_reachable hM
  have hpre : (mazeGraph (generateMaze n rand)).Preconnected :=
    fun a b => (hreach a).symm.trans (hreach b)
  refine ⟨?_, ?_, ?_⟩
  · exact (SimpleGraph.connected_iff_exists_forall_reachable _).mpr ⟨_, hreach⟩
  · have := maze_edge_count hM
    rw [pow_two]
    omega
  · intro a b
    obtain ⟨l, hl⟩ := simplePath_exists hpre a b
    refine ⟨l, hl, fun l2 hl2 => ?_⟩
    obtain ⟨birth, T, hT⟩ := hM.tree
    exact simplePath_unique hM.allv hT (birth a + birth b) a b l2 l rfl hl2 hl

/-- C1 witness at a concrete size and stream. -/
theorem claim1_perfect_maze_witness :
    1 ≤ 2 ∧
      ((mazeGraph (generateMaze 2 (fun _ => 0))).Connected ∧
        (mazeGraph (generateMaze 2 (fun _ => 0))).edgeFinset.card = 2 ^ 2 - 1 ∧
        ∀ a b : Pos 2, ∃! l : List (Pos 2),
          IsSimplePath (generateMaze 2 (fun _ => 0)) a b l) :=
  ⟨by decide, claim1_perfect_maze 2 (by decide) (fun _ => 0)⟩

/-- The neighbor cells the BFS of findShortestPath pushes from one cell,
in source order top, right, bottom, left: the cell's own flag toward the
neighbor is cleared and the neighbor is in bounds. -/
def bfsNbrs {n : ℕ} (g : Grid n) (p : Pos n) : List (Pos n) :=
  [Wall.top, Wall.right, Wall.bottom, Wall.left].filterMap fun w =>
    if (g p).wallB w = false then wallNeighbor p w else none

theorem mem_bfsNbrs {n : ℕ} {g : Grid n} {p q : Pos n} :
    q ∈ bfsNbrs g p ↔ openDir g p q := by
  simp only [bfsNbrs, List.mem_filterMap]
  constructor
  · rintro ⟨w, _, hw⟩
    by_cases hf : (g p).wallB w = false
    · rw [if_pos hf] at hw
      exact ⟨w, hw, hf⟩
    · rw [if_neg hf] at hw
      exact Option.noConfusion hw
  · rintro ⟨w, hnb, hf⟩
    exact ⟨w, by cases w <;> simp, by rw [if_pos hf]; exact hnb⟩

/-- Parent-pointer path reconstruction of findShortestPath: walk the parent
map from the end cell, prepending each cell (path.unshift in the source).
The source loops while the parent is defined; the parent chains BFS builds
are acyclic with length below n * n, so a fuel of n * n never runs out. -/
def reconstruct {n : ℕ} (par : Pos n → Option (Pos n)) :
    ℕ → Pos n → List (Pos n) → List (Pos n)
  | 0, cur, acc => cur :: acc
  | fuel + 1, cur, acc =>
    match par cur with
    | none => cur :: acc
    | some p => reconstruct par fuel p (cur :: acc)

/-- One neighbor visit of the BFS inner loop: skip if already visited, else
mark visited, record the parent, and push at the queue's end. -/
def bfsEnqueue {n : ℕ} (cur : Pos n)
    (acc : List (Pos n) × Finset (Pos n) × (Pos n → Option (Pos n))) (nb : Pos n) :
    List (Pos n) × Finset (Pos n) × (Pos n → Option (Pos n)) :=
  if nb ∈ acc.2.1 then acc
  else (acc.1 ++ [nb], insert nb acc.2.1, fun z => if z = nb then some cur else acc.2.2 z)

/-- What one full pass of the BFS inner loop over a neighbor list does to the
queue, visited set and parent map: it appends the first occurrences of the
not-yet-visited neighbors, in order. -/
theorem bfsEnqueue_foldl {n : ℕ} (cur : Pos n) :
    ∀ (nbs : List (Pos n)) (acc : List (Pos n) × Finset (Pos n) × (Pos n → Option (Pos n))),
      ∃ added : List (Pos n),
        (nbs.foldl (bfsEnqueue cur) acc).1 = acc.1 ++ added ∧
        (nbs.foldl (bfsEnqueue cur) acc).2.1 = acc.2.1 ∪ added.toFinset ∧
        added.Nodup ∧
        (∀ w ∈ added, w ∈ nbs ∧ w ∉ acc.2.1) ∧
        (∀ w ∈ nbs, w ∈ (nbs.foldl (bfsEnqueue cur) acc).2.1) ∧
        (∀ z, (nbs.foldl (bfsEnqueue cur) acc).2.2 z =
          if z ∈ added then some cur else acc.2.2 z) := by
  intro nbs
  induction nbs with
  | nil =>
    intro acc
    refine ⟨[], by simp, by simp, by simp, by simp, by simp, by simp⟩
  | cons nb nbs ih =>
    intro acc
    rw [List.foldl_cons]
    by_cases h : nb ∈ acc.2.1
    · have hstep : bfsEnqueue cur acc nb = acc := by
        unfold bfsEnqueue
        rw [if_pos h]
      rw [hstep]
      obtain ⟨added, h1, h2, h3, h4, h5, h6⟩ := ih acc
      refine ⟨added, h1, h2, h3, ?_, ?_, h6⟩
      · intro w hw
        exact ⟨List.mem_cons_of_mem _ (h4 w hw).1, (h4 w hw).2⟩
      · intro w hw
        rcases List.mem_cons.mp hw with rfl | hw'
        · rw [h2]
          exact Finset.mem_union_left _ h
        · exact h5 w hw'
    · have hstep : bfsEnqueue cur acc nb =
          (acc.1 ++ [nb], insert nb acc.2.1, fun z => if z = nb then some cur else acc.2.2 z) := by
        unfold bfsEnqueue
        rw [if_neg h]
      rw [hstep]
      obtain ⟨added, h1, h2, h3, h4, h5, h6⟩ := ih
        (acc.1 ++ [nb], insert nb acc.2.1, fun z => if z = nb then some cur else acc.2.2 z)
      refine ⟨nb :: added, ?_, ?_, ?_, ?_, ?_, ?_⟩
      · rw [h1]
        simp
      · rw [h2]
        show insert nb acc.2.1 ∪ added.toFinset = acc.2.1 ∪ (nb :: added).toFinset
        rw [List.toFinset_cons, Finset.insert_union, Finset.union_insert]
      · refine List.nodup_cons.mpr ⟨?_, h3⟩
        intro hmem
        exact (h4 nb hmem).2 (Finset.mem_insert_self _ _)
      · intro w hw
        rcases List.mem_cons.mp hw with rfl | hw'
        · exact ⟨List.mem_cons_self _ _, h⟩
        · refine ⟨List.mem_cons_of_mem _ (h4 w hw').1, ?_⟩
          intro hv
          exact (h4 w hw').2 (Finset.mem_insert_of_mem hv)
      · intro w hw
        rcases List.mem_cons.mp hw with rfl | hw'
        · rw [h2]
          exact Finset.mem_union_left _ (Finset.mem_insert_self _ _)
        · exact h5 w hw'
      · intro z
        rw [h6 z]
        have hproj : (acc.1 ++ [nb], insert nb acc.2.1,
            fun z => if z = nb then some cur else acc.2.2 z).2.2 z
            = if z = nb then some cur else acc.2.2 z := rfl
        rw [hproj]
        by_cases hz : z ∈ added
        · rw [if_pos hz, if_pos (List.mem_cons_of_mem _ hz)]
        · rw [if_neg hz]
          by_cases hzn : z = nb
          · rw [if_pos hzn, if_pos (hzn ▸ List.mem_cons_self _ _)]
          · rw [if_neg hzn, if_neg ?_]
            intro hmem
            rcases List.mem_cons.mp hmem with h' | h'
            · exact hzn h'
            · exact hz h'

theorem bfsEnqueue_foldl_measure {n : ℕ} (cur : Pos n) (nbs : List (Pos n))
    (q : List (Pos n)) (vis : Finset (Pos n)) (par : Pos n → Option (Pos n)) :
    2 * (Finset.univ \ (nbs.foldl (bfsEnqueue cur) (q, vis, par)).2.1).card +
      (nbs.foldl (bfsEnqueue cur) (q, vis, par)).1.length ≤
    2 * (Finset.univ \ vis).card + q.length := by
  classical
  obtain ⟨added, h1, h2, h3, h4, _, _⟩ := bfsEnqueue_foldl cur nbs (q, vis, par)
  have h1' : (nbs.foldl (bfsEnqueue cur) (q, vis, par)).1 = q ++ added := h1
  have h2' : (nbs.foldl (bfsEnqueue cur) (q, vis, par)).2.1 = vis ∪ added.toFinset := h2
  have hdisj : Disjoint vis added.toFinset := by
    rw [Finset.disjoint_right]
    intro a ha
    exact (h4 a (List.mem_toFinset.mp ha)).2
  have hcard2 : (vis ∪ added.toFinset).card = vis.card + added.length := by
    rw [Finset.card_union_of_disjoint hdisj, List.toFinset_card_of_nodup h3]
  have hsub1 : vis ⊆ Finset.univ := Finset.subset_univ _
  have hsub2 : vis ∪ added.toFinset ⊆ Finset.univ := Finset.subset_univ _
  rw [h1', h2']
  rw [Finset.card_sdiff hsub1, Finset.card_sdiff hsub2, hcard2, List.length_append]
  have hle := Finset.card_le_card hsub2
  rw [hcard2] at hle
  omega

/-- The BFS loop of findShortestPath.  The queue is held in order (shift
takes the head, push appends); visited membership is tested before pushing;
when the end cell is dequeued the path is rebuilt from the parent map. -/
def bfsLoop {n : ℕ} (g : Grid n) (endP : Pos n) :
    List (Pos n) → Finset (Pos n) → (Pos n → Option (Pos n)) → List (Pos n)
  | [], _, _ => []
  | cur :: rest, vis, par =>
    if cur = endP then reconstruct par (n * n) endP []
    else
      bfsLoop g endP
        ((bfsNbrs g cur).foldl (bfsEnqueue cur) (rest, vis, par)).1
        ((bfsNbrs g cur).foldl (bfsEnqueue cur) (rest, vis, par)).2.1
        ((bfsNbrs g cur).foldl (bfsEnqueue cur) (rest, vis, par)).2.2
termination_by queue vis _ => 2 * (Finset.univ \ vis).card + queue.length
decreasing_by
  have := bfsEnqueue_foldl_measure cur (bfsNbrs g cur) rest vis par
  simp only [List.length_cons]
  omega

/-- findShortestPath of the source: BFS from the start with the start cell
queued and visited and an empty parent map. -/
def findShortestPath {n : ℕ} (g : Grid n) (startP endP : Pos n) : List (Pos n) :=
  bfsLoop g endP [startP] {startP} (fun _ => none)

/-- A directional passable path: consecutive cells are linked by an open
passage read from the first cell's own flags (the adjacency findShortestPath
explores). -/
def IsDirPath {n : ℕ} (g : Grid n) (a b : Pos n) (l : List (Pos n)) : Prop :=
  l.head? = some a ∧ l.getLast? = some b ∧ l.Chain' (fun p q => openDir g p q)

/-- b is reachable from a through open passages. -/
def Reach {n : ℕ} (g : Grid n) (a b : Pos n) : Prop := ∃ l, IsDirPath g a b l

theorem reconstruct_spec {n : ℕ} {g : Grid n} {startP : Pos n} {vis : Finset (Pos n)}
    {par : Pos n → Option (Pos n)} {depth : Pos n → ℕ}
    (hstart_depth : depth startP = 0) (hpar_start : par startP = none)
    (hpar_spec : ∀ v, v ∈ vis → v ≠ startP →
      ∃ u, par v = some u ∧ u ∈ vis ∧ openDir g u v ∧ depth v = depth u + 1) :
    ∀ (k : ℕ) (v : Pos n), v ∈ vis → depth v = k →
      ∃ asc : List (Pos n),
        asc.head? = some startP ∧ asc.getLast? = some v ∧
        List.Chain' (fun a b => openDir g a b) asc ∧
        asc.map depth = List.range (k + 1) ∧
        (∀ x ∈ asc, x ∈ vis) ∧
        ∀ (fuel : ℕ), k ≤ fuel → ∀ acc, reconstruct par fuel v acc = asc ++ acc := by
  intro k
  induction k using Nat.strong_induction_on with
  | _ k ih =>
    intro v hv hd
    by_cases hvs : v = startP
    · subst hvs
      have hk0 : k = 0 := by rw [← hd, hstart_depth]
      subst hk0
      refine ⟨[v], rfl, rfl, List.chain'_singleton _, ?_, ?_, ?_⟩
      · simp [hd]
        rfl
      · intro x hx
        rw [List.mem_singleton.mp hx]
        exact hv
      · intro fuel _ acc
        cases fuel with
        | zero => rfl
        | succ m =>
          simp only [reconstruct, hpar_start, List.singleton_append]
    · obtain ⟨u, hpu, huv, hopen, hdep⟩ := hpar_spec v hv hvs
      have hk1 : 1 ≤ k := by omega
      obtain ⟨asc, hh, hl, hch, hmap, hvin, hrec⟩ := ih (depth u) (by omega) u huv rfl
      have hvne : asc ≠ [] := by
        intro he
        rw [he] at hh
        exact Option.noConfusion hh
      refine ⟨asc ++ [v], ?_, by rw [List.getLast?_concat], ?_, ?_, ?_, ?_⟩
      · cases asc with
        | nil => exact absurd rfl hvne
        | cons a t => simpa using hh
      · rw [List.chain'_append]
        refine ⟨hch, List.chain'_singleton _, ?_⟩
        intro x hx y hy
        have hxu : x = u := by
          rw [hl] at hx
          exact (Option.mem_some_iff.mp hx).symm
        have hyv : y = v := by
          simp only [List.head?_cons, Option.mem_some_iff] at hy
          exact hy.symm
        rw [hxu, hyv]
        exact hopen
      · rw [List.map_append, hmap]
        have : depth v = depth u + 1 := hdep
        simp only [List.map_cons, List.map_nil, this]
        have hku : depth u + 1 = k := by omega
        rw [hku, List.range_succ]
      · intro x hx
        rcases List.mem_append.mp hx with h | h
        · exact hvin x h
        · rw [List.mem_singleton.mp h]
          exact hv
      · intro fuel hfuel acc
        cases fuel with
        | zero => omega
        | succ m =>
          simp only [reconstruct, hpu]
          rw [hrec m (by omega) (v :: acc), List.append_assoc]
          rfl

theorem dirPath_crossing {n : ℕ} {g : Grid n} {vis : Finset (Pos n)} :
    ∀ (l : List (Pos n)) (a b : Pos n), IsDirPath g a b l → a ∈ vis → b ∉ vis →
      ∃ (l1 : List (Pos n)) (v u : Pos n) (l2 : List (Pos n)),
        l = l1 ++ v :: u :: l2 ∧ v ∈ vis ∧ u ∉ vis ∧
        IsDirPath g a v (l1 ++ [v]) ∧ openDir g v u := by
  intro l
  induction l with
  | nil =>
    intro a b h _ _
    exact absurd h.1 (by simp)
  | cons x xs ih =>
    intro a b h ha hb
    obtain ⟨hh, hl, hch⟩ := h
    have hx : x = a := by simpa using hh
    subst hx
    cases xs with
    | nil =>
      have hxb : x = b := by simpa using hl
      exact absurd ha (hxb ▸ hb)
    | cons y rest =>
      have hxy : openDir g x y := (List.chain'_cons.mp hch).1
      by_cases hy : y ∈ vis
      · have hl' : (y :: rest).getLast? = some b := by
          rw [← List.getLast?_cons_cons (a := x)]
          exact hl
        obtain ⟨l1, v, u, l2, heq, hv, hu, hp, ho⟩ :=
          ih y b ⟨rfl, hl', (List.chain'_cons.mp hch).2⟩ hy hb
        refine ⟨x :: l1, v, u, l2, ?_, hv, hu, ?_, ho⟩
        · rw [List.cons_append, ← heq]
        · obtain ⟨hph, hpl, hpch⟩ := hp
          refine ⟨rfl, ?_, ?_⟩
          · exact List.getLast?_concat _
          · show List.Chain' (fun p q => openDir g p q) (x :: (l1 ++ [v]))
            rw [List.chain'_cons']
            refine ⟨?_, hpch⟩
            intro z hz
            have hzy : z = y := by
              rw [hph] at hz
              exact (Option.mem_some_iff.mp hz).symm
            rw [hzy]
            exact hxy
      · exact ⟨[], x, y, rest, rfl, ha, hy, ⟨rfl, rfl, List.chain'_singleton _⟩, hxy⟩

/-- The loop invariant of the BFS of findShortestPath, with the ghost depth
assignment: every visited cell's depth is its true shortest open-path
distance from the start, the parent map records a shortest-path tree, the
queue is depth-sorted spanning at most two consecutive depths, dequeued
cells have all their successors visited, and the end cell, once visited,
stays in the queue until dequeued. -/
structure BfsInv {n : ℕ} (g : Grid n) (startP endP : Pos n) (queue : List (Pos n))
    (vis : Finset (Pos n)) (par : Pos n → Option (Pos n)) (depth : Pos n → ℕ) :
    Prop where
  start_vis : startP ∈ vis
  start_depth : depth startP = 0
  par_start : par startP = none
  qsub : ∀ v ∈ queue, v ∈ vis
  qnd : queue.Nodup
  par_spec : ∀ v, v ∈ vis → v ≠ startP →
    ∃ u, par v = some u ∧ u ∈ vis ∧ openDir g u v ∧ depth v = depth u + 1
  upper : ∀ v ∈ vis, ∃ l, IsDirPath g startP v l ∧ l.length = depth v + 1
  lower : ∀ v ∈ vis, ∀ l, IsDirPath g startP v l → depth v + 1 ≤ l.length
  sorted : List.Pairwise (fun a b => depth a ≤ depth b) queue
  spread : ∀ a ∈ queue, ∀ b ∈ queue, depth b ≤ depth a + 1
  closed : ∀ v ∈ vis, v ∉ queue → ∀ w ∈ bfsNbrs g v, w ∈ vis
  endq : endP ∈ vis → endP ∈ queue

theorem bfs_front_lower {n : ℕ} {g : Grid n} {startP endP cur : Pos n}
    {rest : List (Pos n)} {vis : Finset (Pos n)} {par : Pos n → Option (Pos n)}
    {depth : Pos n → ℕ}
    (hInv : BfsInv g startP endP (cur :: rest) vis par depth) :
    ∀ w, w ∉ vis → ∀ l, IsDirPath g startP w l → depth cur + 2 ≤ l.length := by
  intro w hw l hl
  obtain ⟨l1, v, u, l2, heq, hv, hu, hp, ho⟩ :=
    dirPath_crossing l startP w hl hInv.start_vis hw
  have hvq : v ∈ cur :: rest := by
    by_contra hnq
    exact hu (hInv.closed v hv hnq u (mem_bfsNbrs.mpr ho))
  have hdv : depth cur ≤ depth v := by
    rcases List.mem_cons.mp hvq with rfl | hvr
    · exact le_refl _
    · exact (List.pairwise_cons.mp hInv.sorted).1 v hvr
  have hlen1 : depth v + 1 ≤ (l1 ++ [v]).length := hInv.lower v hv _ hp
  rw [heq]
  simp only [List.length_append, List.length_cons, List.length_nil] at *
  omega

theorem bfsInv_init {n : ℕ} (g : Grid n) (startP endP : Pos n) :
    BfsInv g startP endP [startP] {startP} (fun _ => none) (fun _ => 0) := by
  constructor
  case start_vis => exact Finset.mem_singleton_self _
  case start_depth => rfl
  case par_start => rfl
  case qsub =>
    intro v hv
    rw [List.mem_singleton.mp hv]
    exact Finset.mem_singleton_self _
  case qnd => exact List.nodup_singleton _
  case par_spec =>
    intro v hv hvs
    exact absurd (Finset.mem_singleton.mp hv) hvs
  case upper =>
    intro v hv
    rw [Finset.mem_singleton.mp hv]
    exact ⟨[startP], ⟨rfl, rfl, List.chain'_singleton _⟩, rfl⟩
  case lower =>
    intro v hv l hl
    cases l with
    | nil => exact absurd hl.1 (by simp)
    | cons x xs => simp
  case sorted => exact List.pairwise_singleton _ _
  case spread =>
    intro a ha b hb
    omega
  case closed =>
    intro v hv hnq
    exact absurd (by rw [Finset.mem_singleton.mp hv]; exact List.mem_singleton_self _) hnq
  case endq =>
    intro he
    rw [Finset.mem_singleton.mp he]
    exact List.mem_singleton_self _

theorem bfsInv_step {n : ℕ} {g : Grid n} {startP endP cur : Pos n}
    {rest : List (Pos n)} {vis : Finset (Pos n)} {par : Pos n → Option (Pos n)}
    {depth : Pos n → ℕ}
    (hInv : BfsInv g startP endP (cur :: rest) vis par depth) (hne : cur ≠ endP) :
    BfsInv g startP endP
      ((bfsNbrs g cur).foldl (bfsEnqueue cur) (rest, vis, par)).1
      ((bfsNbrs g cur).foldl (bfsEnqueue cur) (rest, vis, par)).2.1
      ((bfsNbrs g cur).foldl (bfsEnqueue cur) (rest, vis, par)).2.2
      (fun z => if z ∈ vis then depth z else depth cur + 1) := by
  classical
  obtain ⟨added, h1, h2, h3, h4, h5, h6⟩ :=
    bfsEnqueue_foldl cur (bfsNbrs g cur) (rest, vis, par)
  have h1' : ((bfsNbrs g cur).foldl (bfsEnqueue cur) (rest, vis, par)).1 =
      rest ++ added := h1
  have h2' : ((bfsNbrs g cur).foldl (bfsEnqueue cur) (rest, vis, par)).2.1 =
      vis ∪ added.toFinset := h2
  have h6' : ∀ z, ((bfsNbrs g cur).foldl (bfsEnqueue cur) (rest, vis, par)).2.2 z =
      if z ∈ added then some cur else par z := h6
  have hcv : cur ∈ vis := hInv.qsub cur (List.mem_cons_self _ _)
  have hcur_rest : cur ∉ rest := (List.nodup_cons.mp hInv.qnd).1
  have hrest_nd : rest.Nodup := (List.nodup_cons.mp hInv.qnd).2
  have hrest_vis : ∀ v ∈ rest, v ∈ vis := fun v hv =>
    hInv.qsub v (List.mem_cons_of_mem _ hv)
  have hadd_nvis : ∀ z ∈ added, z ∉ vis := fun z hz => (h4 z hz).2
  have hadd_open : ∀ z ∈ added, openDir g cur z := fun z hz =>
    mem_bfsNbrs.mp (h4 z hz).1
  have hd_old : ∀ z, z ∈ vis →
      (if z ∈ vis then depth z else depth cur + 1) = depth z := by
    intro z hz
    simp only [if_pos hz]
  have hd_new : ∀ z, z ∈ added →
      (if z ∈ vis then depth z else depth cur + 1) = depth cur + 1 := by
    intro z hz
    simp only [if_neg (hadd_nvis z hz)]
  have hrs : ∀ a ∈ rest, depth cur ≤ depth a :=
    (List.pairwise_cons.mp hInv.sorted).1
  have hFLB := bfs_front_lower hInv
  have hupper_cur := hInv.upper cur hcv
  rw [h1', h2']
  constructor
  case start_vis => exact Finset.mem_union_left _ hInv.start_vis
  case start_depth =>
    rw [hd_old startP hInv.start_vis]
    exact hInv.start_depth
  case par_start =>
    rw [h6' startP]
    rw [if_neg (fun hm => hadd_nvis startP hm hInv.start_vis)]
    exact hInv.par_start
  case qsub =>
    intro v hv
    rcases List.mem_append.mp hv with h | h
    · exact Finset.mem_union_left _ (hrest_vis v h)
    · exact Finset.mem_union_right _ (List.mem_toFinset.mpr h)
  case qnd =>
    refine List.Nodup.append hrest_nd h3 ?_
    intro a ha hb
    exact hadd_nvis a hb (hrest_vis a ha)
  case par_spec =>
    intro v hv hvs
    rcases Finset.mem_union.mp hv with h | h
    · have hvna : v ∉ added := fun hm => hadd_nvis v hm h
      obtain ⟨u, hpu, huv, hop, hdep⟩ := hInv.par_spec v h hvs
      refine ⟨u, ?_, Finset.mem_union_left _ huv, hop, ?_⟩
      · rw [h6' v, if_neg hvna]
        exact hpu
      · rw [hd_old v h, hd_old u huv]
        exact hdep
    · have hma := List.mem_toFinset.mp h
      refine ⟨cur, ?_, Finset.mem_union_left _ hcv, hadd_open v hma, ?_⟩
      · rw [h6' v, if_pos hma]
      · rw [hd_new v hma, hd_old cur hcv]
  case upper =>
    intro v hv
    rcases Finset.mem_union.mp hv with h | h
    · obtain ⟨l, hl, hlen⟩ := hInv.upper v h
      exact ⟨l, hl, by rw [hd_old v h]; exact hlen⟩
    · have hma := List.mem_toFinset.mp h
      obtain ⟨lc, hlc, hlen⟩ := hupper_cur
      obtain ⟨hch, hcl, hcc⟩ := hlc
      have hlcne : lc ≠ [] := by
        intro he
        rw [he] at hch
        exact Option.noConfusion hch
      refine ⟨lc ++ [v], ⟨?_, List.getLast?_concat _, ?_⟩, ?_⟩
      · cases lc with
        | nil => exact absurd rfl hlcne
        | cons a t => simpa using hch
      · rw [List.chain'_append]
        refine ⟨hcc, List.chain'_singleton _, ?_⟩
        intro x hx y hy
        have hxc : x = cur := by
          rw [hcl] at hx
          exact (Option.mem_some_iff.mp hx).symm
        have hyv : y = v := by
          simp only [List.head?_cons, Option.mem_some_iff] at hy
          exact hy.symm
        rw [hxc, hyv]
        exact hadd_open v hma
      · rw [List.length_append, hlen, hd_new v hma]
        simp
  case lower =>
    intro v hv l hl
    rcases Finset.mem_union.mp hv with h | h
    · rw [hd_old v h]
      exact hInv.lower v h l hl
    · have hma := List.mem_toFinset.mp h
      rw [hd_new v hma]
      have := hFLB v (hadd_nvis v hma) l hl
      omega
  case sorted =>
    rw [List.pairwise_append]
    refine ⟨?_, ?_, ?_⟩
    · refine List.Pairwise.imp_of_mem ?_ ((List.pairwise_cons.mp hInv.sorted).2)
      intro a b ha hb hab
      rw [hd_old a (hrest_vis a ha), hd_old b (hrest_vis b hb)]
      exact hab
    · refine List.pairwise_of_forall_mem_list ?_
      intro a ha b hb
      rw [hd_new a ha, hd_new b hb]
    · intro a ha b hb
      rw [hd_old a (hrest_vis a ha), hd_new b hb]
      exact hInv.spread cur (List.mem_cons_self _ _) a (List.mem_cons_of_mem _ ha)
  case spread =>
    intro a ha b hb
    rcases List.mem_append.mp ha with ha' | ha' <;>
      rcases List.mem_append.mp hb with hb' | hb'
    · rw [hd_old a (hrest_vis a ha'), hd_old b (hrest_vis b hb')]
      exact hInv.spread a (List.mem_cons_of_mem _ ha') b (List.mem_cons_of_mem _ hb')
    · rw [hd_old a (hrest_vis a ha'), hd_new b hb']
      have := hrs a ha'
      omega
    · rw [hd_new a ha', hd_old b (hrest_vis b hb')]
      have := hInv.spread cur (List.mem_cons_self _ _) b (List.mem_cons_of_mem _ hb')
      omega
    · rw [hd_new a ha', hd_new b hb']
      omega
  case closed =>
    intro v hv hnq w hw
    rcases Finset.mem_union.mp hv with h | h
    · by_cases hvc : v = cur
      · subst hvc
        rw [← h2']
        exact h5 w hw
      · have hnq' : v ∉ cur :: rest := by
          intro hm
          rcases List.mem_cons.mp hm with h' | h'
          · exact hvc h'
          · exact hnq (List.mem_append_left _ h')
        exact Finset.mem_union_left _ (hInv.closed v h hnq' w hw)
    · exact absurd (List.mem_append_right _ (List.mem_toFinset.mp h)) hnq
  case endq =>
    intro hv
    rcases Finset.mem_union.mp hv with h | h
    · have := hInv.endq h
      rcases List.mem_cons.mp this with h' | h'
      · exact absurd h'.symm hne
      · exact List.mem_append_left _ h'
    · exact List.mem_append_right _ (List.mem_toFinset.mp h)

theorem bfsLoop_correct {n : ℕ} (g : Grid n) (startP endP : Pos n) :
    ∀ (queue : List (Pos n)) (vis : Finset (Pos n)) (par : Pos n → Option (Pos n)),
      ∀ depth : Pos n → ℕ, BfsInv g startP endP queue vis par depth →
        (Reach g startP endP →
          IsDirPath g startP endP (bfsLoop g endP queue vis par) ∧
          (bfsLoop g endP queue vis par).Nodup ∧
          ∀ l, IsDirPath g startP endP l →
            (bfsLoop g endP queue vis par).length ≤ l.length) ∧
        (¬ Reach g startP endP → bfsLoop g endP queue vis par = []) := by
  intro queue vis par
  induction queue, vis, par using bfsLoop.induct g endP with
  | case1 vis par =>
    intro depth hInv
    rw [bfsLoop]
    constructor
    · intro hreach
      exfalso
      obtain ⟨l, hl⟩ := hreach
      have hnv : endP ∉ vis := by
        intro h
        exact absurd (hInv.endq h) (List.not_mem_nil _)
      obtain ⟨l1, v, u, l2, heq, hv, hu, hp, ho⟩ :=
        dirPath_crossing l startP endP hl hInv.start_vis hnv
      exact hu (hInv.closed v hv (List.not_mem_nil _) u (mem_bfsNbrs.mpr ho))
    · intro _
      rfl
  | case2 rest vis par =>
    intro depth hInv
    rw [bfsLoop, if_pos rfl]
    have hev : endP ∈ vis := hInv.qsub endP (List.mem_cons_self _ _)
    obtain ⟨asc, hh, hl, hch, hmap, hvin, hrec⟩ :=
      reconstruct_spec hInv.start_depth hInv.par_start hInv.par_spec
        (depth endP) endP hev rfl
    have hnd : asc.Nodup := by
      have hmn : (asc.map depth).Nodup := by
        rw [hmap]
        exact List.nodup_range _
      exact List.Nodup.of_map depth hmn
    have hlen : asc.length = depth endP + 1 := by
      have hc := congrArg List.length hmap
      rwa [List.length_map, List.length_range] at hc
    have hfc : Fintype.card (Pos n) = n * n := by
      rw [Fintype.card_prod, Fintype.card_fin]
    have hcard : asc.length ≤ n * n := by
      have := List.Nodup.length_le_card hnd
      rwa [hfc] at this
    have hreceq : reconstruct par (n * n) endP [] = asc := by
      rw [hrec (n * n) (by omega) [], List.append_nil]
    rw [hreceq]
    constructor
    · intro _
      refine ⟨⟨hh, hl, hch⟩, hnd, ?_⟩
      intro l hlp
      have := hInv.lower endP hev l hlp
      omega
    · intro hnr
      exact absurd ⟨asc, hh, hl, hch⟩ hnr
  | case3 cur rest vis par hcur ih =>
    intro depth hInv
    rw [bfsLoop, if_neg hcur]
    exact ih (fun z => if z ∈ vis then depth z else depth cur + 1) (bfsInv_step hInv hcur)

/-- Full behavior of findShortestPath: on reachable pairs it returns a
duplicate-free open path from start to end of minimal length; on unreachable
pairs it returns the empty list. -/
theorem findShortestPath_spec {n : ℕ} (g : Grid n) (startP endP : Pos n) :
    (Reach g startP endP →
      IsDirPath g startP endP (findShortestPath g startP endP) ∧
      (findShortestPath g startP endP).Nodup ∧
      ∀ l, IsDirPath g startP endP l →
        (findShortestPath g startP endP).length ≤ l.length) ∧
    (¬ Reach g startP endP → findShortestPath g startP endP = []) :=
  bfsLoop_correct g startP endP [startP] {startP} (fun _ => none) (fun _ => 0)
    (bfsInv_init g startP endP)

theorem findShortestPath_cases {n : ℕ} (g : Grid n) (startP endP : Pos n) :
    findShortestPath g startP endP = [] ∨
      (IsDirPath g startP endP (findShortestPath g startP endP) ∧
        (findShortestPath g startP endP).Nodup) := by
  by_cases h : Reach g startP endP
  · obtain ⟨h1, h2, _⟩ := (findShortestPath_spec g startP endP).1 h
    exact Or.inr ⟨h1, h2⟩
  · exact Or.inl ((findShortestPath_spec g startP endP).2 h)

theorem openDir_symm_of_consistent {n : ℕ} {g : Grid n} (hc : consistent g)
    {p q : Pos n} (h : openDir g p q) : openDir g q p := by
  obtain ⟨w, hnb, hflag⟩ := h
  refine ⟨w.opp, wallNeighbor_symm hnb, ?_⟩
  rw [← hc p q w hnb]
  exact hflag

/-- C3: on every wall-consistent grid, findShortestPath returns, for cells
reachable from the start, a sequence that starts at the start cell, ends at
the end cell, whose consecutive cells are grid-adjacent with the shared wall
cleared on both sides, and whose length is minimal among all passable paths
(the unique tree-path length on a perfect maze); when the end cell is
unreachable it returns the empty sequence without faulting. -/
theorem claim3_findShortestPath (n : ℕ) (g : Grid n) (hc : consistent g)
    (startP endP : Pos n) :
    (Reach g startP endP →
      (findShortestPath g startP endP).head? = some startP ∧
      (findShortestPath g startP endP).getLast? = some endP ∧
      (findShortestPath g startP endP).Chain'
        (fun p q => openDir g p q ∧ openDir g q p) ∧
      ∀ l, IsDirPath g startP endP l →
        (findShortestPath g startP endP).length ≤ l.length) ∧
    (¬ Reach g startP endP → findShortestPath g startP endP = []) := by
  refine ⟨?_, (findShortestPath_spec g startP endP).2⟩
  intro hreach
  obtain ⟨⟨hh, hl, hch⟩, _, hmin⟩ := (findShortestPath_spec g startP endP).1 hreach
  refine ⟨hh, hl, ?_, hmin⟩
  exact List.Chain'.imp (fun p q hpq => ⟨hpq, openDir_symm_of_consistent hc hpq⟩) hch

/-- C3 witness at a concrete consistent grid and cell pair. -/
theorem claim3_findShortestPath_witness :
    consistent (generateMaze 2 (fun _ => 0)) ∧
      ((Reach (generateMaze 2 (fun _ => 0)) ((0, 0) : Pos 2) ((1, 1) : Pos 2) →
        (findShortestPath (generateMaze 2 (fun _ => 0)) (0, 0) (1, 1)).head? = some (0, 0) ∧
        (findShortestPath (generateMaze 2 (fun _ => 0)) (0, 0) (1, 1)).getLast? = some (1, 1) ∧
        (findShortestPath (generateMaze 2 (fun _ => 0)) (0, 0) (1, 1)).Chain'
          (fun p q => openDir (generateMaze 2 (fun _ => 0)) p q ∧
            openDir (generateMaze 2 (fun _ => 0)) q p) ∧
        ∀ l, IsDirPath (generateMaze 2 (fun _ => 0)) (0, 0) (1, 1) l →
          (findShortestPath (generateMaze 2 (fun _ => 0)) (0, 0) (1, 1)).length ≤ l.length) ∧
      (¬ Reach (generateMaze 2 (fun _ => 0)) ((0, 0) : Pos 2) ((1, 1) : Pos 2) →
        findShortestPath (generateMaze 2 (fun _ => 0)) (0, 0) (1, 1) = [])) :=
  ⟨(generateMaze_facts 2 (by decide) (fun _ => 0)).cons,
    claim3_findShortestPath 2 (generateMaze 2 (fun _ => 0))
      (generateMaze_facts 2 (by decide) (fun _ => 0)).cons (0, 0) (1, 1)⟩

/-- TOTAL_STARS of the source. -/
def TOTAL_STARS : ℕ := 3

/-- One Fisher-Yates swap: [arr[i], arr[j]] = [arr[j], arr[i]] in the
source; indices are always in bounds there, the fallback returns the list
unchanged. -/
def swapList {α : Type _} (l : List α) (i j : ℕ) : List α :=
  match l.get? i, l.get? j with
  | some a, some b => (l.set i b).set j a
  | _, _ => l

theorem swapList_length {α : Type _} (l : List α) (i j : ℕ) :
    (swapList l i j).length = l.length := by
  unfold swapList
  cases hi : l.get? i <;> cases hj : l.get? j <;> simp

theorem swapList_subset {α : Type _} {l : List α} {i j : ℕ} {x : α}
    (h : x ∈ swapList l i j) : x ∈ l := by
  unfold swapList at h
  cases hi : l.get? i <;> rw [hi] at h
  · exact h
  · cases hj : l.get? j <;> rw [hj] at h
    · exact h
    · rcases List.mem_or_eq_of_mem_set h with h' | h'
      · rcases List.mem_or_eq_of_mem_set h' with h'' | h''
        · exact h''
        · rw [h'']
          exact List.get?_mem hj
      · rw [h']
        exact List.get?_mem hi

/-- The shuffle loop of generateStars, with i counting from the last index
down to 1; each iteration swaps slot i with a random slot in [0, i]. -/
def fyLoop {α : Type _} (rand : ℕ → ℕ) : List α → ℕ → List α
  | l, 0 => l
  | l, i + 1 => fyLoop rand (swapList l (i + 1) (rand (i + 1) % (i + 2))) i

theorem fyLoop_length {α : Type _} (rand : ℕ → ℕ) :
    ∀ (i : ℕ) (l : List α), (fyLoop rand l i).length = l.length := by
  intro i
  induction i with
  | zero => intro l; rfl
  | succ k ih =>
    intro l
    show (fyLoop rand (swapList l (k + 1) (rand (k + 1) % (k + 2))) k).length = l.length
    rw [ih, swapList_length]

theorem fyLoop_subset {α : Type _} (rand : ℕ → ℕ) :
    ∀ (i : ℕ) (l : List α) (x : α), x ∈ fyLoop rand l i → x ∈ l := by
  intro i
  induction i with
  | zero => intro l x h; exact h
  | succ k ih =>
    intro l x h
    exact swapList_subset (ih _ x h)

/-- The Fisher-Yates shuffle of generateStars. -/
def fisherYates {α : Type _} (rand : ℕ → ℕ) (l : List α) : List α :=
  fyLoop rand l (l.length - 1)

/-- generateStars of the source: the solution path from (0,0) to the exit,
endpoints stripped, shuffled, first TOTAL_STARS taken; no stars when the
path has two or fewer cells. -/
def generateStars {n : ℕ} (g : Grid n) (exitP : Pos n) (rand : ℕ → ℕ) :
    List (Pos n) :=
  if hn : 0 < n then
    if (findShortestPath g (startPos n hn) exitP).length ≤ 2 then []
    else
      (fisherYates rand
        (((findShortestPath g (startPos n hn) exitP).drop 1).dropLast)).take TOTAL_STARS
  else []

theorem interior_mem {α : Type _} {l : List α} {a b x : α} (hnd : l.Nodup)
    (hh : l.head? = some a) (hl : l.getLast? = some b)
    (hx : x ∈ (l.drop 1).dropLast) : x ∈ l ∧ x ≠ a ∧ x ≠ b := by
  cases l with
  | nil => exact absurd hh (by simp)
  | cons y t =>
    have hy : y = a := by simpa using hh
    subst hy
    simp only [List.drop_one, List.tail_cons] at hx
    have hxt : x ∈ t := List.dropLast_subset _ hx
    have hxa : x ≠ y := by
      intro he
      exact (List.nodup_cons.mp hnd).1 (he ▸ hxt)
    refine ⟨List.mem_cons_of_mem _ hxt, hxa, ?_⟩
    cases ht : t with
    | nil =>
      rw [ht] at hx
      exact absurd hx (by simp)
    | cons z t2 =>
      have htne : t ≠ [] := by rw [ht]; simp
      have hbl : t.getLast htne = b := by
        have h1 : (y :: t).getLast? = some ((y :: t).getLast (by simp)) :=
          List.getLast?_eq_getLast_of_ne_nil _
        rw [hl] at h1
        have h2 : (y :: t).getLast (by simp) = t.getLast htne :=
          List.getLast_cons htne
        rw [h2] at h1
        exact (Option.some.inj h1).symm
      have hsplit : t.dropLast ++ [t.getLast htne] = t := List.dropLast_append_getLast htne
      have hndt : t.Nodup := (List.nodup_cons.mp hnd).2
      rw [← hsplit] at hndt
      intro he
      have hxl : t.getLast htne ∈ t.dropLast := by
        rw [hbl, ← he]
        exact hx
      have hdisj := List.disjoint_of_nodup_append hndt
      exact hdisj hxl (List.mem_singleton_self _)

/-- C4: for every grid, exit and random stream, the stars generateStars
places are a subset of the interior of the solution path (endpoints
stripped), number at most min(TOTAL_STARS, interior length), never include
the (0,0) start cell or the exit cell, and are absent whenever the solution
path has at most two cells. -/
theorem claim4_star_invariants (n : ℕ) (hn : 0 < n) (g : Grid n) (exitP : Pos n)
    (rand : ℕ → ℕ) :
    (∀ st ∈ generateStars g exitP rand,
      st ∈ ((findShortestPath g (startPos n hn) exitP).drop 1).dropLast) ∧
    (generateStars g exitP rand).length ≤
      min TOTAL_STARS ((findShortestPath g (startPos n hn) exitP).drop 1).dropLast.length ∧
    startPos n hn ∉ generateStars g exitP rand ∧
    exitP ∉ generateStars g exitP rand ∧
    ((findShortestPath g (startPos n hn) exitP).length ≤ 2 →
      generateStars g exitP rand = []) := by
  unfold generateStars
  rw [dif_pos hn]
  by_cases hshort : (findShortestPath g (startPos n hn) exitP).length ≤ 2
  · rw [if_pos hshort]
    refine ⟨by simp, by simp, by simp, by simp, fun _ => rfl⟩
  · rw [if_neg hshort]
    have hsub : ∀ st ∈ (fisherYates rand
        (((findShortestPath g (startPos n hn) exitP).drop 1).dropLast)).take TOTAL_STARS,
        st ∈ ((findShortestPath g (startPos n hn) exitP).drop 1).dropLast := by
      intro st hst
      exact fyLoop_subset rand _ _ st (List.take_subset _ _ hst)
    have hnotnil : findShortestPath g (startPos n hn) exitP ≠ [] := by
      intro he
      rw [he] at hshort
      exact hshort (by simp)
    rcases findShortestPath_cases g (startPos n hn) exitP with hcase | ⟨⟨hh, hl, _⟩, hnd⟩
    · exact absurd hcase hnotnil
    · refine ⟨hsub, ?_, ?_, ?_, fun hc => absurd hc hshort⟩
      · rw [List.length_take]
        unfold fisherYates
        rw [fyLoop_length]
      · intro hmem
        exact ((interior_mem hnd hh hl (hsub _ hmem)).2.1) rfl
      · intro hmem
        exact ((interior_mem hnd hh hl (hsub _ hmem)).2.2) rfl

/-- C4 witness at a concrete grid, exit and stream. -/
theorem claim4_star_invariants_witness :
    0 < 2 ∧
      ((∀ st ∈ generateStars (generateMaze 2 (fun _ => 0)) ((1, 1) : Pos 2) (fun _ => 0),
        st ∈ ((findShortestPath (generateMaze 2 (fun _ => 0))
          (startPos 2 (by decide)) (1, 1)).drop 1).dropLast) ∧
      (generateStars (generateMaze 2 (fun _ => 0)) ((1, 1) : Pos 2) (fun _ => 0)).length ≤
        min TOTAL_STARS ((findShortestPath (generateMaze 2 (fun _ => 0))
          (startPos 2 (by decide)) (1, 1)).drop 1).dropLast.length ∧
      startPos 2 (by decide) ∉
        generateStars (generateMaze 2 (fun _ => 0)) ((1, 1) : Pos 2) (fun _ => 0) ∧
      ((1, 1) : Pos 2) ∉
        generateStars (generateMaze 2 (fun _ => 0)) ((1, 1) : Pos 2) (fun _ => 0) ∧
      ((findShortestPath (generateMaze 2 (fun _ => 0))
          (startPos 2 (by decide)) (1, 1)).length ≤ 2 →
        generateStars (generateMaze 2 (fun _ => 0)) ((1, 1) : Pos 2) (fun _ => 0) = [])) :=
  ⟨by decide, claim4_star_invariants 2 (by decide) (generateMaze 2 (fun _ => 0)) (1, 1) (fun _ => 0)⟩

/-- The level-to-size table of setupLevel. -/
def sizeForLevel (lvl : ℕ) : ℕ :=
  if lvl ≤ 2 then 10 else if lvl ≤ 5 then 15 else if lvl ≤ 8 then 20 else 25

theorem sizeForLevel_ge_10 (lvl : ℕ) : 10 ≤ sizeForLevel lvl := by
  unfold sizeForLevel
  split
  · omega
  · split
    · omega
    · split <;> omega

theorem reach_of_reachable {n : ℕ} {g : Grid n} (hc : consistent g) {a b : Pos n}
    (h : (mazeGraph g).Reachable a b) : Reach g a b := by
  obtain ⟨w⟩ := h
  refine ⟨w.support, ?_, ?_, ?_⟩
  · rw [SimpleGraph.Walk.support_eq_cons]
    rfl
  · rw [List.getLast?_eq_getLast_of_ne_nil (SimpleGraph.Walk.support_ne_nil _)]
    rw [SimpleGraph.Walk.getLast_support]
  · refine List.Chain'.imp ?_ (SimpleGraph.Walk.chain'_adj_support w)
    intro p q hpq
    rcases hpq with h' | h'
    · exact h'
    · exact openDir_symm_of_consistent hc h'

theorem dirPath_length_ge {n : ℕ} {g : Grid n} :
    ∀ (l : List (Pos n)) (a b : Pos n), IsDirPath g a b l →
      (b.1 : ℕ) ≤ (a.1 : ℕ) + (l.length - 1) := by
  intro l
  induction l with
  | nil =>
    intro a b h
    exact absurd h.1 (by simp)
  | cons x xs ih =>
    intro a b h
    obtain ⟨hh, hl, hch⟩ := h
    have hx : x = a := by simpa using hh
    subst hx
    cases xs with
    | nil =>
      have : x = b := by simpa using hl
      subst this
      simp
    | cons y rest =>
      have hxy : openDir g x y := (List.chain'_cons.mp hch).1
      obtain ⟨w, hnb, _⟩ := hxy
      have hdx := wallNeighbor_dx hnb
      have hl' : (y :: rest).getLast? = some b := by
        rw [← List.getLast?_cons_cons (a := x)]
        exact hl
      have := ih y b ⟨rfl, hl', (List.chain'_cons.mp hch).2⟩
      simp only [List.length_cons] at *
      omega

/-- C10: with the actual level-setup preconditions (size at least 10 as the
level table guarantees, start at (0,0), exit in the last column, a generated
perfect maze), the solution path has at least size cells, hence more than 2,
its interior has at least 3 cells, the short-path branch of generateStars
cannot fire, and every level starts with exactly TOTAL_STARS stars. -/
theorem claim10_full_stars (n : ℕ) (hn : 10 ≤ n) (randM randS : ℕ → ℕ) (ey : Fin n) :
    n ≤ (findShortestPath (generateMaze n randM) (startPos n (by omega))
      ((⟨n - 1, by omega⟩, ey) : Pos n)).length ∧
    2 < (findShortestPath (generateMaze n randM) (startPos n (by omega))
      ((⟨n - 1, by omega⟩, ey) : Pos n)).length ∧
    3 ≤ (((findShortestPath (generateMaze n randM) (startPos n (by omega))
      ((⟨n - 1, by omega⟩, ey) : Pos n)).drop 1).dropLast).length ∧
    (generateStars (generateMaze n randM) ((⟨n - 1, by omega⟩, ey) : Pos n) randS).length
      = TOTAL_STARS ∧
    (∀ lvl, 10 ≤ sizeForLevel lvl) := by
  have hn0 : 0 < n := by omega
  have hM := generateMaze_facts n hn0 randM
  set g := generateMaze n randM with hg
  set exitP : Pos n := (⟨n - 1, by omega⟩, ey) with hexit
  have hreach : Reach g (startPos n hn0) exitP := by
    refine reach_of_reachable hM.cons ?_
    exact ((maze_reachable hM (startPos n hn0)).symm).trans (maze_reachable hM exitP)
  obtain ⟨hdir, hnd, hmin⟩ := (findShortestPath_spec g (startPos n hn0) exitP).1 hreach
  set sol := findShortestPath g (startPos n hn0) exitP with hsol
  have hlen : n ≤ sol.length := by
    have hx := dirPath_length_ge sol (startPos n hn0) exitP hdir
    have hx1 : ((startPos n hn0).1 : ℕ) = 0 := rfl
    have hx2 : (exitP.1 : ℕ) = n - 1 := rfl
    rw [hx1, hx2] at hx
    have hpos : sol ≠ [] := by
      intro he
      rw [he] at hdir
      exact absurd hdir.1 (by simp)
    have : 1 ≤ sol.length := by
      cases hs : sol with
      | nil => exact absurd hs hpos
      | cons a t => simp
    omega
  have hint : sol.length - 2 = ((sol.drop 1).dropLast).length := by
    rw [List.length_dropLast, List.length_drop]
    omega
  have hstars : (generateStars g exitP randS).length = TOTAL_STARS := by
    unfold generateStars
    rw [dif_pos hn0]
    have hproofirr : findShortestPath g (startPos n hn0) exitP = sol := rfl
    rw [if_neg (by rw [hproofirr]; omega)]
    rw [List.length_take]
    unfold fisherYates
    rw [fyLoop_length]
    rw [hproofirr]
    have h3 : TOTAL_STARS ≤ ((sol.drop 1).dropLast).length := by
      unfold TOTAL_STARS
      omega
    omega
  refine ⟨hlen, by omega, by unfold TOTAL_STARS at *; omega, hstars, sizeForLevel_ge_10⟩

/-- C10 witness at the smallest in-range size. -/
theorem claim10_full_stars_witness :
    10 ≤ 10 ∧
      (10 ≤ (findShortestPath (generateMaze 10 (fun _ => 0)) (startPos 10 (by omega))
        ((⟨10 - 1, by omega⟩, (0 : Fin 10)) : Pos 10)).length ∧
      2 < (findShortestPath (generateMaze 10 (fun _ => 0)) (startPos 10 (by omega))
        ((⟨10 - 1, by omega⟩, (0 : Fin 10)) : Pos 10)).length ∧
      3 ≤ (((findShortestPath (generateMaze 10 (fun _ => 0)) (startPos 10 (by omega))
        ((⟨10 - 1, by omega⟩, (0 : Fin 10)) : Pos 10)).drop 1).dropLast).length ∧
      (generateStars (generateMaze 10 (fun _ => 0))
        ((⟨10 - 1, by omega⟩, (0 : Fin 10)) : Pos 10) (fun _ => 0)).length = TOTAL_STARS ∧
      (∀ lvl, 10 ≤ sizeForLevel lvl)) :=
  ⟨by decide, claim10_full_stars 10 (by decide) (fun _ => 0) (fun _ => 0) 0⟩

theorem sizeForLevel_pos (lvl : ℕ) : 0 < sizeForLevel lvl :=
  lt_of_lt_of_le (by omega) (sizeForLevel_ge_10 lvl)

/-- The session maze: a square grid with its side length, as the maze
global holds it. -/
structure MazeRep where
  size : ℕ
  grid : Grid size

/-- Array lookup maze[y]?.[x] of the source: undefined outside bounds. -/
def MazeRep.lookup (m : MazeRep) (x y : Int) : Option Cell :=
  if hx : 0 ≤ x ∧ x < (m.size : Int) then
    if hy : 0 ≤ y ∧ y < (m.size : Int) then
      some (m.grid (⟨x.toNat, by omega⟩, ⟨y.toNat, by omega⟩))
    else none
  else none

/-- canMove of src/index.tsx (identical in part_000): look the cell up with
maze[y]?.[x], treat a missing cell as blocked, then test the four direction
cases in source order against the cell's own wall flags. -/
def canMove (m : MazeRep) (pos : Int × Int) (dir : Int × Int) : Bool :=
  match m.lookup pos.1 pos.2 with
  | none => false
  | some cell =>
    if dir.1 = 1 ∧ cell.right = false then true
    else if dir.1 = -1 ∧ cell.left = false then true
    else if dir.2 = 1 ∧ cell.bottom = false then true
    else if dir.2 = -1 ∧ cell.top = false then true
    else false

/-- The session states of src/index.tsx. -/
inductive GState | start | playing | won
deriving DecidableEq, Repr

/-- ANIMATION_SPEED of the source. -/
def ANIMATION_SPEED : ℚ := 1 / 4

/-- The mutable module-level state of src/index.tsx that the core operates
on (rendering, audio and DOM text are external collaborators and hold no
game state). -/
structure Session where
  level : ℕ
  maze : MazeRep
  player : Int × Int
  renderPos : ℚ × ℚ
  exitP : Int × Int
  stars : List (Int × Int)
  collectedStars : ℕ
  gameState : GState
  isAnimating : Bool
  currentDirection : Int × Int
  desiredDirection : Int × Int

/-- Coordinates of a grid position as session integers. -/
def posToInt {n : ℕ} (p : Pos n) : Int × Int := (((p.1 : ℕ) : Int), ((p.2 : ℕ) : Int))

/-- setDirection of src/index.tsx: the movement intent is dropped unless
the session is playing (initAudio is an external audio collaborator). -/
def setDirection (s : Session) (dx dy : Int) : Session :=
  if s.gameState ≠ GState.playing then s
  else { s with desiredDirection := (dx, dy) }

/-- checkGameStatus of src/index.tsx: collect a star under the player
(splice plus counter), then on reaching the exit enter the won state and
zero both directions.  The setTimeout it schedules is modelled separately
as levelAdvanceV1; sounds and DOM text are external. -/
def checkGameStatus (s : Session) : Session :=
  let s1 :=
    match s.stars.findIdx? (fun st => st = s.player) with
    | some i =>
      { s with
        stars := s.stars.eraseIdx i,
        collectedStars := s.collectedStars + 1 }
    | none => s
  if s1.player = s1.exitP then
    { s1 with
      gameState := GState.won,
      currentDirection := (0, 0),
      desiredDirection := (0, 0) }
  else s1

/-- Squared distance between the render and logical positions.  The source
compares Math.sqrt(rdx*rdx + rdy*rdy) < 0.01; both sides are nonnegative,
so the comparison is equivalent to rdx^2 + rdy^2 < 0.0001, which keeps the
embedding inside exact rational arithmetic. -/
def distSq (s : Session) : ℚ :=
  ((s.player.1 : ℚ) - s.renderPos.1) ^ 2 + ((s.player.2 : ℚ) - s.renderPos.2) ^ 2

/-- The direction-change resolution at the head of the idle branch of
update: user input becomes the current direction when nonzero and either
passable or the exact opposite of the current direction. -/
def resolvedSession (s : Session) : Session :=
  if (s.desiredDirection.1 ≠ 0 ∨ s.desiredDirection.2 ≠ 0) ∧
      (canMove s.maze s.player s.desiredDirection = true ∨
        (s.desiredDirection.1 = -s.currentDirection.1 ∧
          s.desiredDirection.2 = -s.currentDirection.2))
  then { s with currentDirection := s.desiredDirection }
  else s

/-- update of src/index.tsx: one frame tick.  While animating, either snap
(when the remaining distance is below 0.01) or move the render position a
quarter of the remaining vector, and take no new move; otherwise, when
playing, resolve the desired direction and either step (logical move,
animation start, status check) or stop. -/
def update (s : Session) : Session :=
  if s.isAnimating then
    if distSq s < 1 / 10000 then
      { s with
        renderPos := (((s.player.1 : ℚ)), ((s.player.2 : ℚ))),
        isAnimating := false }
    else
      { s with
        renderPos :=
          (s.renderPos.1 + ((s.player.1 : ℚ) - s.renderPos.1) * ANIMATION_SPEED,
           s.renderPos.2 + ((s.player.2 : ℚ) - s.renderPos.2) * ANIMATION_SPEED) }
  else if s.gameState = GState.playing then
    if canMove (resolvedSession s).maze (resolvedSession s).player
        (resolvedSession s).currentDirection then
      checkGameStatus
        { resolvedSession s with
          player :=
            ((resolvedSession s).player.1 + (resolvedSession s).currentDirection.1,
              (resolvedSession s).player.2 + (resolvedSession s).currentDirection.2),
          isAnimating := true }
    else { resolvedSession s with currentDirection := (0, 0) }
  else s

/-- Number of checkGameStatus invocations a tick of update performs, read
off the call sites of the source: exactly one, at the move initiation. -/
def updateChecks (s : Session) : ℕ :=
  if s.isAnimating then 0
  else if s.gameState = GState.playing then
    if canMove (resolvedSession s).maze (resolvedSession s).player
        (resolvedSession s).currentDirection then 1 else 0
  else 0

/-- setupLevel of src/index.tsx: wholesale replacement of the level state;
the maze size comes from the level table, the exit sits in the last column
at a random row, the maze is regenerated and the stars repicked.  Canvas
sizing and DOM text are external. -/
def setupLevel (newLevel : ℕ) (randE : ℕ) (randM randS : ℕ → ℕ) (s : Session) :
    Session :=
  { level := newLevel
    maze := ⟨sizeForLevel newLevel, generateMaze (sizeForLevel newLevel) randM⟩
    player := (0, 0)
    renderPos := (0, 0)
    exitP := ((sizeForLevel newLevel : Int) - 1, ((randE % sizeForLevel newLevel : ℕ) : Int))
    stars := (generateStars (generateMaze (sizeForLevel newLevel) randM)
      (⟨sizeForLevel newLevel - 1, Nat.sub_lt (sizeForLevel_pos newLevel) Nat.one_pos⟩,
        ⟨randE % sizeForLevel newLevel, Nat.mod_lt _ (sizeForLevel_pos newLevel)⟩)
      randS).map posToInt
    collectedStars := 0
    gameState := GState.playing
    isAnimating := false
    currentDirection := (0, 0)
    desiredDirection := (0, 0) }

/-- The delayed level-advance callback of src/index.tsx: setTimeout runs
setupLevel(level + 1) with no guard of any kind; level is the global read
at fire time. -/
def levelAdvanceV1 (randE : ℕ) (randM randS : ℕ → ℕ) (s : Session) : Session :=
  setupLevel (s.level + 1) randE randM randS s

/-- The session states of src/unnamed/part_000. -/
inductive GStateB | start | playing | celebrating
deriving DecidableEq, Repr

/-- The held-key flags of part_000. -/
structure KeysDown where
  up : Bool
  down : Bool
  left : Bool
  right : Bool
deriving DecidableEq, Repr

/-- The module-level state of src/unnamed/part_000 (confetti particles are
excluded as pure rendering, spec section 9). -/
structure SessionB where
  level : ℕ
  maze : MazeRep
  player : Int × Int
  renderPos : ℚ × ℚ
  exitP : Int × Int
  stars : List (Int × Int)
  collectedStars : ℕ
  gameState : GStateB
  isAnimating : Bool
  keysDown : KeysDown

/-- setupLevel of part_000 (keysDown is not reset by the source). -/
def setupLevelB (newLevel : ℕ) (randE : ℕ) (randM randS : ℕ → ℕ) (s : SessionB) :
    SessionB :=
  { level := newLevel
    maze := ⟨sizeForLevel newLevel, generateMaze (sizeForLevel newLevel) randM⟩
    player := (0, 0)
    renderPos := (0, 0)
    exitP := ((sizeForLevel newLevel : Int) - 1, ((randE % sizeForLevel newLevel : ℕ) : Int))
    stars := (generateStars (generateMaze (sizeForLevel newLevel) randM)
      (⟨sizeForLevel newLevel - 1, Nat.sub_lt (sizeForLevel_pos newLevel) Nat.one_pos⟩,
        ⟨randE % sizeForLevel newLevel, Nat.mod_lt _ (sizeForLevel_pos newLevel)⟩)
      randS).map posToInt
    collectedStars := 0
    gameState := GStateB.playing
    isAnimating := false
    keysDown := s.keysDown }

/-- The delayed level-advance callback of part_000: it re-checks that the
session is still celebrating before re-running setup, else does nothing. -/
def levelAdvanceB (randE : ℕ) (randM randS : ℕ → ℕ) (s : SessionB) : SessionB :=
  if s.gameState = GStateB.celebrating then setupLevelB (s.level + 1) randE randM randS s
  else s

/-- A small concrete maze used by the concrete sessions below. -/
def sampleMaze : MazeRep := ⟨1, generateMaze 1 (fun _ => 0)⟩

/-- A concrete idle session in the won state. -/
def wonSession : Session :=
  { level := 1, maze := sampleMaze, player := (0, 0), renderPos := (0, 0),
    exitP := (0, 0), stars := [], collectedStars := 0, gameState := GState.won,
    isAnimating := false, currentDirection := (0, 0), desiredDirection := (0, 0) }

/-- A concrete session back in the playing state (as after a resize re-ran
setupLevel while a win timeout was still pending). -/
def playingSession : Session :=
  { level := 1, maze := sampleMaze, player := (0, 0), renderPos := (0, 0),
    exitP := (5, 5), stars := [], collectedStars := 0, gameState := GState.playing,
    isAnimating := false, currentDirection := (0, 0), desiredDirection := (0, 0) }

/-- A concrete mid-animation session within snap range of its target. -/
def snapSession : Session :=
  { level := 1, maze := sampleMaze, player := (1, 0), renderPos := (1 - 1/200, 0),
    exitP := (5, 5), stars := [], collectedStars := 0, gameState := GState.playing,
    isAnimating := true, currentDirection := (1, 0), desiredDirection := (1, 0) }

/-- A concrete session at the start of a one-cell step animation. -/
def stepSession : Session :=
  { level := 1, maze := sampleMaze, player := (1, 0), renderPos := (0, 0),
    exitP := (5, 5), stars := [], collectedStars := 0, gameState := GState.playing,
    isAnimating := true, currentDirection := (1, 0), desiredDirection := (1, 0) }

/-- A concrete part_000 session back in the playing state. -/
def playingSessionB : SessionB :=
  { level := 1, maze := sampleMaze, player := (0, 0), renderPos := (0, 0),
    exitP := (5, 5), stars := [], collectedStars := 0, gameState := GStateB.playing,
    isAnimating := false, keysDown := ⟨false, false, false, false⟩ }

theorem generateMaze_consistent (n : ℕ) (rand : ℕ → ℕ) :
    consistent (generateMaze n rand) := by
  rcases Nat.eq_zero_or_pos n with h | h
  · subst h
    intro p q w hw
    exact absurd p.1.isLt (by omega)
  · exact (generateMaze_facts n h rand).cons

theorem checkGameStatus_maze (s : Session) : (checkGameStatus s).maze = s.maze := by
  unfold checkGameStatus
  cases s.stars.findIdx? (fun st => st = s.player) <;> dsimp only [] <;> split <;> rfl

theorem resolvedSession_maze (s : Session) : (resolvedSession s).maze = s.maze := by
  unfold resolvedSession
  split <;> rfl

theorem update_maze (s : Session) : (update s).maze = s.maze := by
  unfold update
  split
  · split <;> rfl
  · split
    · split
      · rw [checkGameStatus_maze]
        exact resolvedSession_maze s
      · exact resolvedSession_maze s
    · rfl

/-- C2: after generateMaze completes, the shared-wall flags of every pair of
grid-adjacent cells agree (both cleared in the same carve step), and no
later core operation (setDirection, checkGameStatus, update) mutates the
maze, so the invariant is preserved thereafter. -/
theorem claim2_wall_consistency (n : ℕ) (rand : ℕ → ℕ) :
    (∀ (p q : Pos n) (w : Wall), wallNeighbor p w = some q →
      ((generateMaze n rand) p).wallB w = ((generateMaze n rand) q).wallB w.opp) ∧
    (∀ (s : Session) (dx dy : Int), (setDirection s dx dy).maze = s.maze) ∧
    (∀ s : Session, (checkGameStatus s).maze = s.maze) ∧
    (∀ s : Session, (update s).maze = s.maze) := by
  refine ⟨generateMaze_consistent n rand, ?_, checkGameStatus_maze, update_maze⟩
  intro s dx dy
  unfold setDirection
  split <;> rfl

/-- C2 witness: a concrete adjacent pair on a generated maze and concrete
sessions for the preservation parts. -/
theorem claim2_wall_consistency_witness :
    (wallNeighbor ((0, 0) : Pos 2) Wall.right = some ((1, 0) : Pos 2)) ∧
      ((generateMaze 2 (fun _ => 0)) ((0, 0) : Pos 2)).wallB Wall.right =
        ((generateMaze 2 (fun _ => 0)) ((1, 0) : Pos 2)).wallB Wall.right.opp ∧
      (setDirection wonSession 1 0).maze = wonSession.maze := by
  refine ⟨by decide, ?_, ?_⟩
  · exact (claim2_wall_consistency 2 (fun _ => 0)).1 (0, 0) (1, 0) Wall.right (by decide)
  · exact (claim2_wall_consistency 2 (fun _ => 0)).2.1 wonSession 1 0

/-- C9: a movement intent sent while the session is not playing is ignored:
setDirection leaves the whole session state unchanged. -/
theorem claim9_ignore_when_not_playing (s : Session) (dx dy : Int)
    (h : s.gameState ≠ GState.playing) : setDirection s dx dy = s := by
  unfold setDirection
  rw [if_pos h]

/-- C9 witness on a concrete won session. -/
theorem claim9_ignore_when_not_playing_witness :
    wonSession.gameState ≠ GState.playing ∧ setDirection wonSession 1 0 = wonSession :=
  ⟨by decide, claim9_ignore_when_not_playing wonSession 1 0 (by decide)⟩

/-- C6 counterexample: in src/index.tsx the delayed level-advance callback
is unguarded; fired against a session whose state already changed back to
playing (for example after a resize re-ran setup), it still advances the
level and mutates the session, so it is not a no-op. -/
theorem claim6_stale_callback_counterexample :
    playingSession.gameState = GState.playing ∧
    (levelAdvanceV1 0 (fun _ => 0) (fun _ => 0) playingSession).level =
      playingSession.level + 1 ∧
    levelAdvanceV1 0 (fun _ => 0) (fun _ => 0) playingSession ≠ playingSession := by
  refine ⟨rfl, rfl, ?_⟩
  intro h
  have h2 := congrArg Session.level h
  exact absurd h2 (by decide)

/-- C6 amended: only the part_000 variant guards the delayed level-advance:
its callback re-checks that the session is still celebrating and is a no-op
otherwise, while the index.tsx callback unconditionally re-runs level setup
for level + 1. -/
theorem claim6_stale_callback_amended (randE : ℕ) (randM randS : ℕ → ℕ) :
    (∀ s : SessionB, s.gameState ≠ GStateB.celebrating →
      levelAdvanceB randE randM randS s = s) ∧
    (∀ s : Session, levelAdvanceV1 randE randM randS s =
      setupLevel (s.level + 1) randE randM randS s) := by
  constructor
  · intro s h
    unfold levelAdvanceB
    rw [if_neg h]
  · intro s
    rfl

/-- C6 amended witness on concrete sessions. -/
theorem claim6_stale_callback_amended_witness :
    playingSessionB.gameState ≠ GStateB.celebrating ∧
      levelAdvanceB 0 (fun _ => 0) (fun _ => 0) playingSessionB = playingSessionB ∧
      levelAdvanceV1 0 (fun _ => 0) (fun _ => 0) playingSession =
        setupLevel (playingSession.level + 1) 0 (fun _ => 0) (fun _ => 0) playingSession :=
  ⟨by decide,
    (claim6_stale_callback_amended 0 (fun _ => 0) (fun _ => 0)).1 playingSessionB (by decide),
    (claim6_stale_callback_amended 0 (fun _ => 0) (fun _ => 0)).2 playingSession⟩

theorem checkGameStatus_isAnimating (s : Session) :
    (checkGameStatus s).isAnimating = s.isAnimating := by
  unfold checkGameStatus
  cases s.stars.findIdx? (fun st => st = s.player) <;> dsimp only [] <;> split <;> rfl

/-- The two possible effects of one animating tick of update: exact snap
when the squared remaining distance is below epsilon squared, else a move
that scales the squared remaining distance by (3/4)^2. -/
theorem update_anim_dichotomy (s : Session) (h : s.isAnimating = true) :
    (distSq s < 1 / 10000 →
      (update s).renderPos = (((s.player.1 : ℚ)), ((s.player.2 : ℚ))) ∧
      (update s).isAnimating = false ∧ (update s).player = s.player ∧
      distSq (update s) = 0) ∧
    (¬ distSq s < 1 / 10000 →
      distSq (update s) = (9 / 16) * distSq s ∧
      (update s).isAnimating = true ∧ (update s).player = s.player ∧
      (update s).renderPos =
        (s.renderPos.1 + ((s.player.1 : ℚ) - s.renderPos.1) * ANIMATION_SPEED,
         s.renderPos.2 + ((s.player.2 : ℚ) - s.renderPos.2) * ANIMATION_SPEED)) := by
  constructor
  · intro hd
    unfold update
    rw [if_pos h, if_pos hd]
    refine ⟨rfl, rfl, rfl, ?_⟩
    show ((s.player.1 : ℚ) - (s.player.1 : ℚ)) ^ 2 +
        ((s.player.2 : ℚ) - (s.player.2 : ℚ)) ^ 2 = 0
    ring
  · intro hd
    unfold update
    rw [if_pos h, if_neg hd]
    refine ⟨?_, h, rfl, rfl⟩
    show ((s.player.1 : ℚ) -
        (s.renderPos.1 + ((s.player.1 : ℚ) - s.renderPos.1) * ANIMATION_SPEED)) ^ 2 +
      ((s.player.2 : ℚ) -
        (s.renderPos.2 + ((s.player.2 : ℚ) - s.renderPos.2) * ANIMATION_SPEED)) ^ 2 =
      9 / 16 * (((s.player.1 : ℚ) - s.renderPos.1) ^ 2 +
        ((s.player.2 : ℚ) - s.renderPos.2) ^ 2)
    unfold ANIMATION_SPEED
    ring

/-- Closed form of the unit-step animation on stepSession: after k non-snap
ticks the remaining distance is (3/4)^k. -/
theorem stepSession_iterate :
    ∀ k, k ≤ 17 →
      (update^[k] stepSession).renderPos = ((1 - (3 / 4 : ℚ) ^ k), 0) ∧
      (update^[k] stepSession).player = (1, 0) ∧
      (update^[k] stepSession).isAnimating = true := by
  intro k
  induction k with
  | zero =>
    intro _
    refine ⟨?_, rfl, rfl⟩
    show ((0 : ℚ), (0 : ℚ)) = (1 - (3 / 4 : ℚ) ^ 0, 0)
    norm_num
  | succ m ih =>
    intro hm
    obtain ⟨hr, hp, ha⟩ := ih (by omega)
    have hq : (1 / 100 : ℚ) ≤ (3 / 4) ^ m := by
      calc (1 / 100 : ℚ) ≤ (3 / 4) ^ 16 := by norm_num
        _ ≤ (3 / 4) ^ m := pow_le_pow_of_le_one (by norm_num) (by norm_num) (by omega)
    have hds : distSq (update^[m] stepSession) = ((3 / 4 : ℚ) ^ m) ^ 2 := by
      unfold distSq
      rw [hr, hp]
      show (((1 : Int) : ℚ) - (1 - (3 / 4 : ℚ) ^ m)) ^ 2 +
        (((0 : Int) : ℚ) - 0) ^ 2 = ((3 / 4 : ℚ) ^ m) ^ 2
      push_cast
      ring
    have hnotlt : ¬ distSq (update^[m] stepSession) < 1 / 10000 := by
      rw [hds]
      have he : (1 / 10000 : ℚ) = (1 / 100) ^ 2 := by norm_num
      rw [he]
      exact not_lt.mpr (pow_le_pow_left (by norm_num) hq 2)
    have hstep := (update_anim_dichotomy _ ha).2 hnotlt
    rw [Function.iterate_succ_apply']
    refine ⟨?_, ?_, hstep.2.1⟩
    · rw [hstep.2.2.2, hr, hp]
      refine Prod.ext ?_ ?_
      · show (1 - (3 / 4 : ℚ) ^ m) + (((1 : Int) : ℚ) - (1 - (3 / 4 : ℚ) ^ m)) *
          ANIMATION_SPEED = 1 - (3 / 4 : ℚ) ^ (m + 1)
        unfold ANIMATION_SPEED
        push_cast
        ring
      · show (0 : ℚ) + (((0 : Int) : ℚ) - 0) * ANIMATION_SPEED = 0
        unfold ANIMATION_SPEED
        push_cast
        ring
    · rw [hstep.2.2.1, hp]

theorem stepSession_distSq :
    ∀ k, k ≤ 17 → distSq (update^[k] stepSession) = ((3 / 4 : ℚ) ^ k) ^ 2 := by
  intro k hk
  obtain ⟨hr, hp, _⟩ := stepSession_iterate k hk
  unfold distSq
  rw [hr, hp]
  show (((1 : Int) : ℚ) - (1 - (3 / 4 : ℚ) ^ k)) ^ 2 +
    (((0 : Int) : ℚ) - 0) ^ 2 = ((3 / 4 : ℚ) ^ k) ^ 2
  push_cast
  ring

theorem stepSession_lt17 :
    distSq (update^[17] stepSession) < 1 / 10000 := by
  rw [stepSession_distSq 17 (le_refl _)]
  have h1 : (3 / 4 : ℚ) ^ 17 < 1 / 100 := by norm_num
  calc ((3 / 4 : ℚ) ^ 17) ^ 2 < (1 / 100) ^ 2 :=
        pow_lt_pow_left h1 (by positivity) (by norm_num)
    _ = 1 / 10000 := by norm_num

theorem stepSession_snap :
    (update^[18] stepSession).renderPos = ((1 : ℚ), (0 : ℚ)) ∧
    (update^[18] stepSession).player = (1, 0) ∧
    distSq (update^[18] stepSession) = 0 := by
  obtain ⟨hr, hp, ha⟩ := stepSession_iterate 17 (le_refl _)
  have hsnap := (update_anim_dichotomy _ ha).1 stepSession_lt17
  rw [show (18 : ℕ) = 17 + 1 from rfl, Function.iterate_succ_apply']
  refine ⟨?_, ?_, hsnap.2.2.2⟩
  · rw [hsnap.1, hp]
    show (((1 : Int) : ℚ), ((0 : Int) : ℚ)) = ((1 : ℚ), (0 : ℚ))
    norm_num
  · rw [hsnap.2.2.1, hp]

/-- C7 counterexample: in src/index.tsx the tick on which the animation
completes (remaining distance below epsilon) snaps the render position
exactly and clears the animating flag but performs no pickup/win check
(update calls checkGameStatus only in the move-initiation branch), so the
claim that the checks run at that point is false. -/
theorem claim7_check_at_snap_counterexample :
    snapSession.isAnimating = true ∧
    distSq snapSession < 1 / 10000 ∧
    (update snapSession).renderPos =
      (((snapSession.player.1 : ℚ)), ((snapSession.player.2 : ℚ))) ∧
    (update snapSession).isAnimating = false ∧
    updateChecks snapSession = 0 := by
  have hdist : distSq snapSession < 1 / 10000 := by
    show (((1 : Int) : ℚ) - (1 - 1 / 200)) ^ 2 + (((0 : Int) : ℚ) - 0) ^ 2 < 1 / 10000
    push_cast
    norm_num
  have hsnap := (update_anim_dichotomy snapSession rfl).1 hdist
  exact ⟨rfl, hdist, hsnap.1, hsnap.2.1, rfl⟩

/-- C7 amended: in src/index.tsx the pickup/win check runs exactly once per
completed grid step, at the moment the step is initiated: a tick that
initiates a move runs the check once and raises the animating flag; every
animating tick runs no check, and the snap tick (distance below epsilon)
snaps the render position exactly and clears the flag, still with no
check; other idle ticks run no check.  (In the part_000 variant the check
runs both at initiation and again at the snap.) -/
theorem claim7_check_once_amended :
    (∀ s : Session, s.isAnimating = true → updateChecks s = 0) ∧
    (∀ s : Session, s.isAnimating = true → distSq s < 1 / 10000 →
      (update s).renderPos = (((s.player.1 : ℚ)), ((s.player.2 : ℚ))) ∧
      (update s).isAnimating = false) ∧
    (∀ s : Session, s.isAnimating = false → s.gameState = GState.playing →
      updateChecks s =
        (if canMove (resolvedSession s).maze (resolvedSession s).player
          (resolvedSession s).currentDirection = true then 1 else 0) ∧
      (canMove (resolvedSession s).maze (resolvedSession s).player
          (resolvedSession s).currentDirection = true →
        (update s).isAnimating = true)) ∧
    (∀ s : Session, s.isAnimating = false → s.gameState ≠ GState.playing →
      updateChecks s = 0) := by
  refine ⟨?_, ?_, ?_, ?_⟩
  · intro s h
    unfold updateChecks
    rw [if_pos h]
  · intro s h hd
    have hsnap := (update_anim_dichotomy s h).1 hd
    exact ⟨hsnap.1, hsnap.2.1⟩
  · intro s h hp
    constructor
    · unfold updateChecks
      rw [if_neg (by rw [h]; exact Bool.false_ne_true), if_pos hp]
    · intro hc
      unfold update
      rw [if_neg (by rw [h]; exact Bool.false_ne_true), if_pos hp, if_pos hc]
      rw [checkGameStatus_isAnimating]
  · intro s h hp
    unfold updateChecks
    rw [if_neg (by rw [h]; exact Bool.false_ne_true), if_neg hp]

/-- C7 amended witness on concrete sessions. -/
theorem claim7_check_once_amended_witness :
    (stepSession.isAnimating = true ∧ updateChecks stepSession = 0) ∧
    (wonSession.isAnimating = false ∧ wonSession.gameState ≠ GState.playing ∧
      updateChecks wonSession = 0) :=
  ⟨⟨rfl, claim7_check_once_amended.1 stepSession rfl⟩,
    ⟨rfl, by decide, claim7_check_once_amended.2.2.2 wonSession rfl (by decide)⟩⟩

/-- C8 counterexample: on the program's actual one-cell step the render
position does not yet equal the logical position after
ceil(log epsilon / log(1 - ANIMATION_SPEED)) = 17 ticks: tick 17 still
starts at distance (3/4)^16, at least epsilon, so it moves rather than
snaps, and the exact equality only arrives on tick 18.  The first two
conjuncts pin the formula value: 17 is the least k with (3/4)^k below
1/100 = epsilon / (1 grid unit). -/
theorem claim8_convergence_counterexample :
    (∀ k, k ≤ 16 → ¬ ((3 / 4 : ℚ) ^ k < 1 / 100)) ∧
    ((3 / 4 : ℚ) ^ 17 < 1 / 100) ∧
    stepSession.isAnimating = true ∧
    distSq stepSession = 1 ∧
    (update^[17] stepSession).renderPos ≠
      (((stepSession.player.1 : ℚ)), ((stepSession.player.2 : ℚ))) := by
  refine ⟨?_, by norm_num, rfl, ?_, ?_⟩
  · intro k hk
    refine not_lt.mpr ?_
    calc (1 / 100 : ℚ) ≤ (3 / 4) ^ 16 := by norm_num
      _ ≤ (3 / 4) ^ k := pow_le_pow_of_le_one (by norm_num) (by norm_num) hk
  · show (((1 : Int) : ℚ) - 0) ^ 2 + (((0 : Int) : ℚ) - 0) ^ 2 = 1
    push_cast
    norm_num
  · obtain ⟨hr, hp, _⟩ := stepSession_iterate 17 (le_refl _)
    rw [hr]
    intro hcon
    have h1 := congrArg Prod.fst hcon
    have h2 : (1 : ℚ) - (3 / 4) ^ 17 = ((1 : Int) : ℚ) := h1
    rw [Int.cast_one] at h2
    have h3 : (3 / 4 : ℚ) ^ 17 = 0 := by linarith
    have h4 : (0 : ℚ) < (3 / 4) ^ 17 := by positivity
    rw [h3] at h4
    exact lt_irrefl _ h4

/-- C8 amended: each animating tick either snaps exactly (when the squared
remaining distance is below epsilon squared, after which the distance is
zero and the flag is cleared) or scales the squared remaining distance by
(1 - ANIMATION_SPEED)^2 = 9/16 and keeps animating; on the program's
actual unit grid step the render position equals the logical position
exactly after 17 + 1 = 18 ticks and at no earlier tick, the distance
strictly decreases on every tick through the snap, and the render position
never overshoots the segment from the start cell to the target cell. -/
theorem claim8_convergence_amended :
    (∀ s : Session, s.isAnimating = true →
      (distSq s < 1 / 10000 →
        (update s).renderPos = (((s.player.1 : ℚ)), ((s.player.2 : ℚ))) ∧
        (update s).isAnimating = false ∧ distSq (update s) = 0) ∧
      (¬ distSq s < 1 / 10000 →
        distSq (update s) = (9 / 16) * distSq s ∧
        (update s).isAnimating = true)) ∧
    ((update^[18] stepSession).renderPos =
      (((stepSession.player.1 : ℚ)), ((stepSession.player.2 : ℚ)))) ∧
    (∀ k, k < 18 → (update^[k] stepSession).renderPos ≠
      (((stepSession.player.1 : ℚ)), ((stepSession.player.2 : ℚ)))) ∧
    (∀ k, k < 18 → distSq (update^[k + 1] stepSession) < distSq (update^[k] stepSession)) ∧
    (∀ k, k ≤ 18 → 0 ≤ (update^[k] stepSession).renderPos.1 ∧
      (update^[k] stepSession).renderPos.1 ≤ 1 ∧
      (update^[k] stepSession).renderPos.2 = 0) := by
  have hne : ∀ k, k ≤ 17 → (update^[k] stepSession).renderPos ≠
      (((stepSession.player.1 : ℚ)), ((stepSession.player.2 : ℚ))) := by
    intro k hk hcon
    obtain ⟨hr, _, _⟩ := stepSession_iterate k hk
    rw [hr] at hcon
    have h1 := congrArg Prod.fst hcon
    have h2 : (1 : ℚ) - (3 / 4) ^ k = ((1 : Int) : ℚ) := h1
    rw [Int.cast_one] at h2
    have h3 : (3 / 4 : ℚ) ^ k = 0 := by linarith
    have h4 : (0 : ℚ) < (3 / 4) ^ k := by positivity
    rw [h3] at h4
    exact lt_irrefl _ h4
  refine ⟨?_, ?_, ?_, ?_, ?_⟩
  · intro s h
    constructor
    · intro hd
      have hs := (update_anim_dichotomy s h).1 hd
      exact ⟨hs.1, hs.2.1, hs.2.2.2⟩
    · intro hd
      have hs := (update_anim_dichotomy s h).2 hd
      exact ⟨hs.1, hs.2.1⟩
  · rw [stepSession_snap.1]
    show ((1 : ℚ), (0 : ℚ)) = (((1 : Int) : ℚ), ((0 : Int) : ℚ))
    norm_num
  · intro k hk
    exact hne k (by omega)
  · intro k hk
    by_cases h17 : k ≤ 16
    · rw [stepSession_distSq (k + 1) (by omega), stepSession_distSq k (by omega)]
      have h0 : (0 : ℚ) < (3 / 4) ^ k := by positivity
      have hlt : (3 / 4 : ℚ) ^ (k + 1) < (3 / 4) ^ k := by
        rw [pow_succ]
        nth_rewrite 2 [show ((3 : ℚ) / 4) ^ k = (3 / 4) ^ k * 1 from (mul_one _).symm]
        exact mul_lt_mul_of_pos_left (by norm_num) h0
      exact pow_lt_pow_left hlt (by positivity) (by norm_num)
    · have hk17 : k = 17 := by omega
      subst hk17
      rw [show (17 : ℕ) + 1 = 18 from rfl, stepSession_snap.2.2,
        stepSession_distSq 17 (le_refl _)]
      positivity
  · intro k hk
    by_cases h17 : k ≤ 17
    · obtain ⟨hr, _, _⟩ := stepSession_iterate k h17
      rw [hr]
      have h1 : (0 : ℚ) < (3 / 4) ^ k := by positivity
      have h2 : (3 / 4 : ℚ) ^ k ≤ 1 := pow_le_one₀ (by norm_num) (by norm_num)
      refine ⟨by simp; linarith, by simp; linarith, rfl⟩
    · have hk18 : k = 18 := by omega
      subst hk18
      rw [stepSession_snap.1]
      norm_num

/-- C8 amended witness on the concrete step session. -/
theorem claim8_convergence_amended_witness :
    stepSession.isAnimating = true ∧
      ((distSq stepSession < 1 / 10000 →
        (update stepSession).renderPos =
          (((stepSession.player.1 : ℚ)), ((stepSession.player.2 : ℚ))) ∧
        (update stepSession).isAnimating = false ∧ distSq (update stepSession) = 0) ∧
      (¬ distSq stepSession < 1 / 10000 →
        distSq (update stepSession) = (9 / 16) * distSq stepSession ∧
        (update stepSession).isAnimating = true)) :=
  ⟨rfl, claim8_convergence_amended.1 stepSession rfl⟩

/-- The wall flag of a cell toward a movement direction: right/left/bottom/top
for dx = 1 / dx = -1 / dy = 1 / dy = -1, the four cases canMove tests in
source order; a non-unit direction matches no case and is blocked. -/
def flagToward (c : Cell) (dir : Int × Int) : Bool :=
  if dir.1 = 1 then c.right
  else if dir.1 = -1 then c.left
  else if dir.2 = 1 then c.bottom
  else if dir.2 = -1 then c.top
  else true

theorem MazeRep.lookup_some {m : MazeRep} {x y : Int} {c : Cell}
    (h : m.lookup x y = some c) :
    ∃ (hx : 0 ≤ x ∧ x < (m.size : Int)) (hy : 0 ≤ y ∧ y < (m.size : Int)),
      c = m.grid (⟨x.toNat, by omega⟩, ⟨y.toNat, by omega⟩) := by
  unfold MazeRep.lookup at h
  split at h
  · rename_i hx
    split at h
    · rename_i hy
      exact ⟨hx, hy, (Option.some_inj.mp h).symm⟩
    · exact absurd h (by simp)
  · exact absurd h (by simp)

theorem canMove_some {m : MazeRep} {pos : Int × Int} {c : Cell}
    (h : m.lookup pos.1 pos.2 = some c) {dir : Int × Int}
    (hdir : dir = (1, 0) ∨ dir = (-1, 0) ∨ dir = (0, 1) ∨ dir = (0, -1)) :
    canMove m pos dir = !(flagToward c dir) := by
  rcases hdir with rfl | rfl | rfl | rfl
  · cases hc : c.right <;> norm_num [canMove, h, flagToward, hc]
  · cases hc : c.left <;> norm_num [canMove, h, flagToward, hc]
  · cases hc : c.bottom <;> norm_num [canMove, h, flagToward, hc]
  · cases hc : c.top <;> norm_num [canMove, h, flagToward, hc]

theorem canMove_none {m : MazeRep} {pos : Int × Int} (dir : Int × Int)
    (h : m.lookup pos.1 pos.2 = none) :
    canMove m pos dir = false := by
  simp only [canMove, h]

/-- On a generated maze the border walls are closed, so an open flag toward a
direction puts the target cell in bounds. -/
theorem generated_open_in_bounds (n : ℕ) (rand : ℕ → ℕ) (hn : 0 < n)
    {x y : Int} {c : Cell}
    (h : MazeRep.lookup ⟨n, generateMaze n rand⟩ x y = some c)
    {dir : Int × Int}
    (hdir : dir = (1, 0) ∨ dir = (-1, 0) ∨ dir = (0, 1) ∨ dir = (0, -1))
    (hf : flagToward c dir = false) :
    0 ≤ x + dir.1 ∧ x + dir.1 < (n : Int) ∧
      0 ≤ y + dir.2 ∧ y + dir.2 < (n : Int) := by
  obtain ⟨hx, hy, hc⟩ := MazeRep.lookup_some h
  have hx' : 0 ≤ x ∧ x < (n : Int) := hx
  have hy' : 0 ≤ y ∧ y < (n : Int) := hy
  have hc' : c = generateMaze n rand
      ((⟨x.toNat, by omega⟩, ⟨y.toNat, by omega⟩) : Pos n) := hc
  have hborder := (generateMaze_facts n hn rand).border
  rcases hdir with rfl | rfl | rfl | rfl
  · refine ⟨?_, ?_, ?_, ?_⟩
    · show 0 ≤ x + 1
      omega
    · show x + 1 < (n : Int)
      by_contra hb
      have hwn : wallNeighbor
          ((⟨x.toNat, by omega⟩, ⟨y.toNat, by omega⟩) : Pos n) Wall.right = none := by
        simp only [wallNeighbor]
        rw [dif_neg (by show ¬(x.toNat + 1 < n); omega)]
      have hbt := hborder _ Wall.right hwn
      rw [← hc'] at hbt
      have hcr : c.right = true := hbt
      have hfr : c.right = false := by norm_num [flagToward] at hf; exact hf
      rw [hcr] at hfr
      exact absurd hfr (by decide)
    · show 0 ≤ y + 0
      omega
    · show y + 0 < (n : Int)
      omega
  · refine ⟨?_, ?_, ?_, ?_⟩
    · show 0 ≤ x + -1
      by_contra hb
      have hwn : wallNeighbor
          ((⟨x.toNat, by omega⟩, ⟨y.toNat, by omega⟩) : Pos n) Wall.left = none := by
        simp only [wallNeighbor]
        rw [dif_neg (by show ¬(0 < x.toNat); omega)]
      have hbt := hborder _ Wall.left hwn
      rw [← hc'] at hbt
      have hcl : c.left = true := hbt
      have hfl : c.left = false := by norm_num [flagToward] at hf; exact hf
      rw [hcl] at hfl
      exact absurd hfl (by decide)
    · show x + -1 < (n : Int)
      omega
    · show 0 ≤ y + 0
      omega
    · show y + 0 < (n : Int)
      omega
  · refine ⟨?_, ?_, ?_, ?_⟩
    · show 0 ≤ x + 0
      omega
    · show x + 0 < (n : Int)
      omega
    · show 0 ≤ y + 1
      omega
    · show y + 1 < (n : Int)
      by_contra hb
      have hwn : wallNeighbor
          ((⟨x.toNat, by omega⟩, ⟨y.toNat, by omega⟩) : Pos n) Wall.bottom = none := by
        simp only [wallNeighbor]
        rw [dif_neg (by show ¬(y.toNat + 1 < n); omega)]
      have hbt := hborder _ Wall.bottom hwn
      rw [← hc'] at hbt
      have hcb : c.bottom = true := hbt
      have hfb : c.bottom = false := by norm_num [flagToward] at hf; exact hf
      rw [hcb] at hfb
      exact absurd hfb (by decide)
  · refine ⟨?_, ?_, ?_, ?_⟩
    · show 0 ≤ x + 0
      omega
    · show x + 0 < (n : Int)
      omega
    · show 0 ≤ y + -1
      by_contra hb
      have hwn : wallNeighbor
          ((⟨x.toNat, by omega⟩, ⟨y.toNat, by omega⟩) : Pos n) Wall.top = none := by
        simp only [wallNeighbor]
        rw [dif_neg (by show ¬(0 < y.toNat); omega)]
      have hbt := hborder _ Wall.top hwn
      rw [← hc'] at hbt
      have hct : c.top = true := hbt
      have hft : c.top = false := by norm_num [flagToward] at hf; exact hf
      rw [hct] at hft
      exact absurd hft (by decide)
    · show y + -1 < (n : Int)
      omega

/-- C5: on a generated maze, canMove(pos, dir) for a unit direction returns
true iff the cell lookup succeeds with the wall flag toward dir false and the
target cell pos + dir lies in bounds (the code never tests the target bounds,
but the closed border of every generated maze makes an open flag imply them);
and an out-of-bounds lookup (maze[y]?.[x] undefined) always yields false
rather than a fault. -/
theorem claim5_canMove (n : ℕ) (rand : ℕ → ℕ) (hn : 0 < n)
    (pos dir : Int × Int)
    (hdir : dir = (1, 0) ∨ dir = (-1, 0) ∨ dir = (0, 1) ∨ dir = (0, -1)) :
    (canMove ⟨n, generateMaze n rand⟩ pos dir = true ↔
      ((∃ c, MazeRep.lookup ⟨n, generateMaze n rand⟩ pos.1 pos.2 = some c ∧
          flagToward c dir = false) ∧
        0 ≤ pos.1 + dir.1 ∧ pos.1 + dir.1 < (n : Int) ∧
        0 ≤ pos.2 + dir.2 ∧ pos.2 + dir.2 < (n : Int))) ∧
    (MazeRep.lookup ⟨n, generateMaze n rand⟩ pos.1 pos.2 = none →
      canMove ⟨n, generateMaze n rand⟩ pos dir = false) := by
  constructor
  · cases hlu : MazeRep.lookup ⟨n, generateMaze n rand⟩ pos.1 pos.2 with
    | none =>
      rw [canMove_none dir hlu]
      constructor
      · intro hcon
        exact absurd hcon (by decide)
      · rintro ⟨⟨c, hc, -⟩, -⟩
        exact Option.noConfusion hc
    | some c =>
      rw [canMove_some hlu hdir]
      constructor
      · intro hb
        have hf : flagToward c dir = false := by
          cases hfc : flagToward c dir
          · rfl
          · rw [hfc] at hb
            exact absurd hb (by decide)
        exact ⟨⟨c, rfl, hf⟩, generated_open_in_bounds n rand hn hlu hdir hf⟩
      · rintro ⟨⟨c2, hc2, hf2⟩, -⟩
        cases Option.some_inj.mp hc2
        rw [hf2]
        rfl
  · exact canMove_none dir

/-- C5 witness at a concrete out-of-range position. -/
theorem claim5_canMove_witness :
    0 < 1 ∧
    ((canMove ⟨1, generateMaze 1 (fun _ => 0)⟩ (5, 0) (1, 0) = true ↔
      ((∃ c, MazeRep.lookup ⟨1, generateMaze 1 (fun _ => 0)⟩ 5 0 = some c ∧
          flagToward c (1, 0) = false) ∧
        0 ≤ (5 : Int) + 1 ∧ (5 : Int) + 1 < ((1 : ℕ) : Int) ∧
        0 ≤ (0 : Int) + 0 ∧ (0 : Int) + 0 < ((1 : ℕ) : Int))) ∧
    (MazeRep.lookup ⟨1, generateMaze 1 (fun _ => 0)⟩ 5 0 = none →
      canMove ⟨1, generateMaze 1 (fun _ => 0)⟩ (5, 0) (1, 0) = false)) :=
  ⟨Nat.one_pos,
    claim5_canMove 1 (fun _ => 0) Nat.one_pos (5, 0) (1, 0) (Or.inl rfl)⟩

end Mataha
